import Mathlib

/-!
# Verification of the moto-scraper crawl pipeline

Shallow embedding of the core pipeline of the `moto-scraper-v1` repository
(discovery engine, page classifier, unit normalizer, record merger, image
downloader), with theorems settling the frozen claims about its behaviour.

Numbers are modelled as exact rationals (`ℚ`); Python strings are modelled as
ASCII `String`/`List Char` (the repository only manipulates ASCII keywords,
URLs and unit tokens).  Fallible Python code (exceptions) is modelled with
`Option`/`Except`.
-/

namespace Moto

/-! ## Python string primitives -/

/-- Python's `\s` class (whitespace recognised by `str.strip` and `re`):
space, tab, newline, carriage return, vertical tab, form feed. -/
def isPySpace (c : Char) : Bool :=
  c = ' ' ∨ c = '\t' ∨ c = '\n' ∨ c = '\r' ∨ c = '\x0b' ∨ c = '\x0c'

/-- `str.strip()` on a list of characters. -/
def pyStrip (cs : List Char) : List Char :=
  ((cs.dropWhile isPySpace).reverse.dropWhile isPySpace).reverse

/-- `str.lower()` (ASCII). -/
def pyLower (cs : List Char) : List Char :=
  cs.map Char.toLower

/-- Fuel-indexed scanner behind `removeAll`; with `fuel = cs.length` it
deletes every leftmost, non-overlapping occurrence of the non-empty
pattern `pat` (each step consumes at least one character, so the fuel
never runs out before the list does). -/
def removeAllFuel (pat : List Char) : ℕ → List Char → List Char
  | 0, _ => []
  | _ + 1, [] => []
  | fuel + 1, c :: t =>
    if pat ≠ [] ∧ pat.isPrefixOf (c :: t) then
      removeAllFuel pat fuel ((c :: t).drop pat.length)
    else
      c :: removeAllFuel pat fuel t

/-- `str.replace(pat, "")`: delete every (leftmost, non-overlapping)
occurrence of the non-empty pattern `pat`. -/
def removeAll (pat : List Char) (cs : List Char) : List Char :=
  removeAllFuel pat cs.length cs

/-! ## `src/utils/units.py` — value parsing

`parse_spec_value` searches its input with the Python regex

    ([\d.]+)(?:\s*[-–]\s*([\d.]+))?\s*([a-zA-Z][a-zA-Z./\-]*)

and falls back to `([\d.]+)` alone; matched number strings go through
Python's `float`, which raises `ValueError` on dot-only or multi-dot tokens.
For this particular pattern, greedy left-to-right matching without
backtracking is observationally equivalent to Python's backtracking engine
(each greedy token class is disjoint from the character class that must
follow it), which is what `matchNumUnitAt`/`searchNumUnit` implement. -/

/-- The `[\d.]` character class. -/
def isNumChar (c : Char) : Bool :=
  c.isDigit ∨ c = '.'

/-- The `[a-zA-Z]` character class (ASCII letters). -/
def isAsciiAlpha (c : Char) : Bool :=
  ('a' ≤ c ∧ c ≤ 'z') ∨ ('A' ≤ c ∧ c ≤ 'Z')

/-- The `[a-zA-Z./\-]` character class (continuation of a unit token). -/
def isUnitChar (c : Char) : Bool :=
  isAsciiAlpha c ∨ c = '.' ∨ c = '/' ∨ c = '-'

/-- Numeric value of a digit list read in base 10. -/
def digitsVal (cs : List Char) : ℕ :=
  cs.foldl (fun acc c => 10 * acc + (c.toNat - '0'.toNat)) 0

/-- Python's `float` on a `[\d.]+` token: accepts at most one dot and at
least one digit ( `"1."`, `".5"` fine; `"."`, `"1.2.3"` raise). -/
def pyFloatNum? (cs : List Char) : Option ℚ :=
  if cs.any Char.isDigit ∧ (cs.filter (fun c => c = '.')).length ≤ 1 then
    let intPart := cs.takeWhile (fun c => ¬ (c = '.'))
    let fracPart := (cs.dropWhile (fun c => ¬ (c = '.'))).drop 1
    some ((digitsVal intPart : ℚ) + (digitsVal fracPart : ℚ) / (10 : ℚ) ^ fracPart.length)
  else
    none

/-- Attempt the number-with-unit pattern anchored at the start of `cs`.
Returns `(group1, group2?, group3)` on success. -/
def matchNumUnitAt (cs : List Char) : Option (List Char × Option (List Char) × List Char) :=
  let n1 := cs.takeWhile isNumChar
  if n1 = [] then none
  else
    let rest1 := cs.drop n1.length
    let (g2, rest2) :=
      match (rest1.dropWhile isPySpace) with
      | c :: t =>
        if c = '-' ∨ c = '–' then
          let s2 := t.dropWhile isPySpace
          let n2 := s2.takeWhile isNumChar
          if n2 = [] then ((none : Option (List Char)), rest1)
          else (some n2, s2.drop n2.length)
        else (none, rest1)
      | [] => (none, rest1)
    match (rest2.dropWhile isPySpace) with
    | c :: t => if isAsciiAlpha c then some (n1, g2, c :: t.takeWhile isUnitChar) else none
    | [] => none

/-- `re.search` of the number-with-unit pattern: try every start position,
left to right. -/
def searchNumUnit : List Char → Option (List Char × Option (List Char) × List Char)
  | [] => none
  | c :: t =>
    match matchNumUnitAt (c :: t) with
    | some r => some r
    | none => searchNumUnit t

/-- `re.search(r'([\d.]+)', ·)`: the leftmost maximal `[\d.]+` run. -/
def searchBareNum : List Char → Option (List Char)
  | [] => none
  | c :: t => if isNumChar c then some ((c :: t).takeWhile isNumChar) else searchBareNum t

/-- `parse_spec_value` from `src/utils/units.py`.  `none` models an
uncaught `ValueError` from `float`; `some (value?, unit?)` the return. -/
def parse_spec_value (s : String) : Option (Option ℚ × Option String) :=
  let cs := pyStrip (removeAll "approximately".data
    (removeAll "approx.".data (removeAll "~".data s.data)))
  match searchNumUnit cs with
  | some (n1, g2, unit) =>
    match pyFloatNum? n1 with
    | none => none
    | some v1 =>
      match g2 with
      | some n2 =>
        match pyFloatNum? n2 with
        | none => none
        | some v2 => some (some ((v1 + v2) / 2), some (String.mk (pyStrip unit)))
      | none => some (some v1, some (String.mk (pyStrip unit)))
  | none =>
    match searchBareNum cs with
    | some n =>
      match pyFloatNum? n with
      | none => none
      | some v => some (some v, none)
    | none => some (none, none)

/-! ## `src/utils/units.py` — metric conversion -/

/-- `round(x, n)` on exact rationals: round half to even (Python's `round`),
at `n` decimal places. -/
def pyRound (n : ℕ) (q : ℚ) : ℚ :=
  let m : ℚ := (10 : ℚ) ^ n
  let x := q * m
  let f : ℤ := ⌊x⌋
  let r := x - (f : ℚ)
  (if r < 1 / 2 then (f : ℚ)
   else if 1 / 2 < r then (f : ℚ) + 1
   else if f % 2 = 0 then (f : ℚ) else (f : ℚ) + 1) / m

def HP_TO_KW : ℚ := 7457 / 10000
def LBFT_TO_NM : ℚ := 13558 / 10000
def INCH_TO_MM : ℚ := 254 / 10
def FOOT_TO_MM : ℚ := 3048 / 10
def LBS_TO_KG : ℚ := 453592 / 1000000
def MPH_TO_KMH : ℚ := 160934 / 100000
def GALLON_TO_LITER : ℚ := 378541 / 100000

def convert_power_hp_to_kw (hp : ℚ) : ℚ := pyRound 2 (hp * HP_TO_KW)

def convert_torque_lbft_to_nm (t : ℚ) : ℚ := pyRound 2 (t * LBFT_TO_NM)

def convert_length_inches_to_mm (v : ℚ) : ℚ := pyRound 1 (v * INCH_TO_MM)

def convert_length_feet_to_mm (v : ℚ) : ℚ := pyRound 1 (v * FOOT_TO_MM)

def convert_weight_lbs_to_kg (v : ℚ) : ℚ := pyRound 2 (v * LBS_TO_KG)

def convert_speed_mph_to_kmh (v : ℚ) : ℚ := pyRound 2 (v * MPH_TO_KMH)

def convert_volume_gallons_to_liters (v : ℚ) : ℚ := pyRound 2 (v * GALLON_TO_LITER)

def convert_fuel_consumption_mpg_to_l100km (v : ℚ) : ℚ :=
  if v ≤ 0 then 0 else pyRound 2 ((235214 / 1000) / v)

/-- `unit.lower().strip()` on a Lean `String`. -/
def pyNormToken (s : String) : String :=
  String.mk (pyStrip (pyLower s.data))

/-- `convert_to_metric` from `src/utils/units.py`. -/
def convert_to_metric (value : ℚ) (unit target_unit : String) : Option ℚ :=
  let u := pyNormToken unit
  let t := pyNormToken target_unit
  if u ∈ ["hp", "horsepower", "bhp"] ∧ t ∈ ["kw", "kilowatt", "kilowatts"] then
    some (convert_power_hp_to_kw value)
  else if u ∈ ["lb-ft", "lbft", "lb.ft", "ft-lb", "ft.lb"] ∧ t ∈ ["nm", "n-m", "newton-meter"] then
    some (convert_torque_lbft_to_nm value)
  else if u ∈ ["in", "inch", "inches", "\""] ∧ t ∈ ["mm", "millimeter", "millimeters"] then
    some (convert_length_inches_to_mm value)
  else if u ∈ ["ft", "foot", "feet", "\x27"] ∧ t ∈ ["mm", "millimeter", "millimeters"] then
    some (convert_length_feet_to_mm value)
  else if u ∈ ["lb", "lbs", "pound", "pounds"] ∧ t ∈ ["kg", "kilogram", "kilograms"] then
    some (convert_weight_lbs_to_kg value)
  else if u ∈ ["mph", "mi/h"] ∧ t ∈ ["km/h", "kmh", "kph"] then
    some (convert_speed_mph_to_kmh value)
  else if u ∈ ["gal", "gallon", "gallons"] ∧ t ∈ ["l", "liter", "liters", "litre", "litres"] then
    some (convert_volume_gallons_to_liters value)
  else if u ∈ ["mpg", "mi/gal"] ∧ t ∈ ["l/100km", "l/100 km"] then
    some (convert_fuel_consumption_mpg_to_l100km value)
  else if u = t then
    some value
  else
    none

/-- Every source-unit spelling accepted by one of `convert_to_metric`'s
conversion rules. -/
def allSourceUnits : List String :=
  ["hp", "horsepower", "bhp", "lb-ft", "lbft", "lb.ft", "ft-lb", "ft.lb",
   "in", "inch", "inches", "\"", "ft", "foot", "feet", "\x27",
   "lb", "lbs", "pound", "pounds", "mph", "mi/h",
   "gal", "gallon", "gallons", "mpg", "mi/gal"]

/-! ## `src/crawler/classifier.py` — page-type classification

`BikePageClassifier.get_page_type` walks the insertion-ordered
`page_type_indicators` dict; for each page type in order it returns that
type as soon as one of its indicator keywords occurs as a substring of the
lower-cased URL or the lower-cased content; the default is `'main'`.
(`content.lower() if content else ""` equals `content.lower()` for total
strings, since `"".lower() == ""`.) -/

/-- The ordered `page_type_indicators` table from `BikePageClassifier`. -/
def page_type_indicators : List (String × List String) :=
  [("specs", ["specification", "spec", "technical", "tech-data"]),
   ("gallery", ["gallery", "photos", "images"]),
   ("features", ["features", "equipment", "technology"]),
   ("insights", ["insights", "insight"]),
   ("stories", ["stories", "story", "travel"]),
   ("main", ["overview", "details", "home"])]

/-- Python's substring test `pat in hay`. -/
def pyIn (pat : List Char) : List Char → Bool
  | [] => pat.isPrefixOf []
  | c :: t => pat.isPrefixOf (c :: t) || pyIn pat t

/-- One table row matches when some indicator occurs in the lower-cased URL
or in the lower-cased content (Python `indicator in url_lower or indicator
in content_lower`). -/
def typeMatches (url_lower content_lower : List Char) (p : String × List String) : Bool :=
  p.2.any (fun ind => pyIn ind.data url_lower || pyIn ind.data content_lower)

/-- `BikePageClassifier.get_page_type`. -/
def get_page_type (url content : String) : String :=
  match page_type_indicators.find? (typeMatches (pyLower url.data) (pyLower content.data)) with
  | some p => p.1
  | none => "main"

/-! ## `src/utils/schema.py` and `src/processors/merger.py` — value model

`BikeData` is the pydantic record.  The six specification groups are
modelled uniformly as `Option (List (Option α))`: `none` is a group set to
Python `None` (the `Optional[...]` group fields), and a present group is
the ordered list of its field slots (`EngineSpecs` has 13 fields,
`TransmissionSpecs` 3, `ChassisSpecs` 7, `DimensionSpecs` 9,
`PerformanceSpecs` 3, `ElectricalSpecs` 4); the field values themselves
are opaque (`α`), since `_merge_specs` only ever tests them against
`None`.  `max_power_kw` is field 5 of `EngineSpecs` (after `type`,
`displacement_cc`, `bore_mm`, `stroke_mm`, `compression_ratio`).

`colors` and `source_urls` are merged through Python `set`s whose
iteration order is implementation-defined, so they are modelled as
`Finset String`; `features` and `images` deduplication is
order-preserving and modelled exactly.  A merge returning `none` models
the uncaught `TypeError` from `len(bike_data.description)` when the
accumulator's description is non-empty and the incoming one is `None`. -/

structure ImageInfo where
  url : String
  local_path : Option String := none
  alt_text : Option String := none
  image_type : Option String := none
  hash : Option String := none
deriving DecidableEq

structure BikeData (α : Type) where
  manufacturer : String
  model : String
  year : ℤ
  variant : Option String
  engine : Option (List (Option α))
  transmission : Option (List (Option α))
  chassis : Option (List (Option α))
  dimensions : Option (List (Option α))
  performance : Option (List (Option α))
  electrical : Option (List (Option α))
  features : List String
  description : Option String
  colors : Finset String
  images : List ImageInfo
  source_urls : Finset String
deriving DecidableEq

structure PageData (α : Type) where
  bike_data : BikeData α
  page_type : String
deriving DecidableEq

/-- The six specification groups of `BikeSpecifications`. -/
inductive SpecGroup
  | engine
  | transmission
  | chassis
  | dimensions
  | performance
  | electrical
deriving DecidableEq

def groupOf {α : Type} (g : SpecGroup) (b : BikeData α) : Option (List (Option α)) :=
  match g with
  | .engine => b.engine
  | .transmission => b.transmission
  | .chassis => b.chassis
  | .dimensions => b.dimensions
  | .performance => b.performance
  | .electrical => b.electrical

/-- Field counts of the six pydantic spec-group classes. -/
def groupLen : SpecGroup → ℕ
  | .engine => 13
  | .transmission => 3
  | .chassis => 7
  | .dimensions => 9
  | .performance => 3
  | .electrical => 4

/-- Index of `max_power_kw` in `EngineSpecs`. -/
def max_power_kw_idx : ℕ := 5

/-- The per-field fill of `_merge_specs`: `setattr(spec1, f, value2)` only
when `value1 is None and value2 is not None`. -/
def fillField {α : Type} (a b : Option α) : Option α :=
  match a with
  | some v => some v
  | none => b

/-- Field-by-field fill of `spec2` into `spec1` (iterating
`spec1.model_fields`; a missing `spec2` slot reads as `None` like
`getattr(spec2, f, None)`). -/
def mergeSpecFields {α : Type} : List (Option α) → List (Option α) → List (Option α)
  | [], _ => []
  | a :: t1, [] => fillField a none :: mergeSpecFields t1 []
  | a :: t1, b :: t2 => fillField a b :: mergeSpecFields t1 t2

/-- `DataMerger._merge_specs`: `if not spec1: return spec2;
if not spec2: return spec1;` then fill (a pydantic model instance is
always truthy, so `not spec` holds exactly for `None`). -/
def merge_specs {α : Type} (s1 s2 : Option (List (Option α))) : Option (List (Option α)) :=
  match s1 with
  | none => s2
  | some l1 =>
    match s2 with
    | none => some l1
    | some l2 => some (mergeSpecFields l1 l2)

/-- Value of field `i` of an optional spec group (`None` group: all fields
read as unset). -/
def fieldVal {α : Type} (s : Option (List (Option α))) (i : ℕ) : Option α :=
  match s with
  | none => none
  | some l => l.getD i none

/-- `DataMerger.page_type_priority` lookup with `.get(…, 0)` default. -/
def page_type_priority (pt : String) : ℕ :=
  if pt = "specs" then 3
  else if pt = "main" then 2
  else if pt = "features" then 1
  else 0

/-- Stable insertion into a descending-priority list: an element goes
after every element of priority ≥ its own (so `pySortDesc` is the stable
descending sort that Python's `list.sort(key=…, reverse=True)` performs). -/
def insertDesc {α : Type} (x : PageData α) : List (PageData α) → List (PageData α)
  | [] => [x]
  | y :: t =>
    if page_type_priority x.page_type ≤ page_type_priority y.page_type then
      y :: insertDesc x t
    else
      x :: y :: t

/-- `pages_data.sort(key=…, reverse=True)`: stable descending sort. -/
def pySortDesc {α : Type} (l : List (PageData α)) : List (PageData α) :=
  l.foldl (fun acc x => insertDesc x acc) []

/-- `DataMerger.combine_features`: concatenate, strip, drop empties,
deduplicate preserving first-seen order. -/
def combine_features (ls : List (List String)) : List String :=
  (ls.flatten).foldl
    (fun (acc : List String) f =>
      let fc := String.mk (pyStrip f.data)
      if fc ≠ "" ∧ ¬ fc ∈ acc then acc ++ [fc] else acc) []

/-- The description step of the merge loop:
`if not merged.description or len(bike.description) > len(merged.description)`.
Returns `none` for the `TypeError` raised by `len(None)` when the
accumulator's description is non-empty. -/
def pyDescMerge (acc inc : Option String) : Option (Option String) :=
  match acc with
  | none => some inc
  | some s =>
    if s = "" then some inc
    else
      match inc with
      | none => none
      | some t => some (if s.length < t.length then some t else some s)

/-- One iteration of the loop in `DataMerger.merge_bike_data`: merge the
six spec groups, combine features, take the longer description (possibly
raising), union colors, extend images and source URLs. -/
def mergeStep {α : Type} (merged : BikeData α) (page : PageData α) : Option (BikeData α) :=
  let bd := page.bike_data
  match pyDescMerge merged.description bd.description with
  | none => none
  | some d =>
    some { merged with
      engine := merge_specs merged.engine bd.engine
      transmission := merge_specs merged.transmission bd.transmission
      chassis := merge_specs merged.chassis bd.chassis
      dimensions := merge_specs merged.dimensions bd.dimensions
      performance := merge_specs merged.performance bd.performance
      electrical := merge_specs merged.electrical bd.electrical
      features := combine_features [merged.features, bd.features]
      description := d
      colors := merged.colors ∪ bd.colors
      images := merged.images ++ bd.images
      source_urls := merged.source_urls ∪ bd.source_urls }

/-- The merge loop over the non-top-priority records. -/
def mergeFrom {α : Type} (acc : BikeData α) : List (PageData α) → Option (BikeData α)
  | [] => some acc
  | p :: t =>
    match mergeStep acc p with
    | none => none
    | some acc2 => mergeFrom acc2 t

/-- Final image deduplication by URL, keeping the first occurrence. -/
def dedupImagesByUrl (imgs : List ImageInfo) : List ImageInfo :=
  imgs.foldl
    (fun (acc : List ImageInfo) img =>
      if acc.any (fun i => i.url = img.url) then acc else acc ++ [img]) []

/-- The post-loop normalisation of `merge_bike_data` (source-URL
deduplication is a no-op on the `Finset` model). -/
def finalize {α : Type} (m : BikeData α) : BikeData α :=
  { m with images := dedupImagesByUrl m.images }

/-- `DataMerger.merge_bike_data`.  `none` models an uncaught exception
(`ValueError` on an empty group, `TypeError` from the description step). -/
def merge_bike_data {α : Type} (pages_data : List (PageData α)) : Option (BikeData α) :=
  match pages_data with
  | [] => none
  | [p] => some p.bike_data
  | _ =>
    match pySortDesc pages_data with
    | [] => none
    | first :: rest =>
      match mergeFrom first.bike_data rest with
      | none => none
      | some m => some (finalize m)

/-- `true` when an optional spec group, if present, has exactly `n` field
slots. -/
def wfGroup {α : Type} (s : Option (List (Option α))) (n : ℕ) : Bool :=
  match s with
  | none => true
  | some l => l.length == n

/-- A `BikeData` whose six spec groups (when present) have the schema's
field counts. -/
def WFBike {α : Type} (b : BikeData α) : Bool :=
  wfGroup b.engine 13 && wfGroup b.transmission 3 && wfGroup b.chassis 7 &&
  wfGroup b.dimensions 9 && wfGroup b.performance 3 && wfGroup b.electrical 4

/-- The field value contributed by the first record in `l` that sets
field `i` of group `g` (`none` when no record sets it). -/
def firstSetVal {α : Type} (g : SpecGroup) (i : ℕ) (l : List (PageData α)) : Option α :=
  match l.find? (fun p => (fieldVal (groupOf g p.bike_data) i).isSome) with
  | some p => fieldVal (groupOf g p.bike_data) i
  | none => none

/-- Concrete well-formed record used in witnesses: all fields unset except
`max_power_kw = k`. -/
def bdW (k : ℕ) : BikeData ℕ :=
  { manufacturer := "Ducati", model := "Monster", year := 2025, variant := none,
    engine := some ((List.replicate 13 (none : Option ℕ)).set 5 (some k)),
    transmission := some (List.replicate 3 none), chassis := some (List.replicate 7 none),
    dimensions := some (List.replicate 9 none), performance := some (List.replicate 3 none),
    electrical := some (List.replicate 4 none),
    features := [], description := none, colors := ∅, images := [], source_urls := ∅ }

/-- Concrete two-record group (specs and main pages). -/
def psW1 : List (PageData ℕ) := [⟨bdW 80, "specs"⟩, ⟨bdW 90, "main"⟩]

/-- Concrete three-record group with page types `[specs, main, gallery]`. -/
def psW2 : List (PageData ℕ) := [⟨bdW 80, "specs"⟩, ⟨bdW 90, "main"⟩, ⟨bdW 70, "gallery"⟩]

/-! ## `src/processors/merger.py` — heap model of object identity

The value model above cannot express the in-place `setattr` mutation of
`_merge_specs`, so the merge is also embedded against an explicit store:
spec-group objects live in `Store α` (a heap addressed by `ℕ`), and a
record (`BikeRef`) holds `Option ℕ` pointers to its six group objects
(`None` group ↦ `none`).  `model_copy(deep=True)` allocates fresh cells;
`setattr(spec1, f, v)` is `List.set` at `spec1`'s address; the
`if not spec1: return spec2` branch returns `spec2`'s pointer — the
aliasing under scrutiny in the frame claim.  Fields other than the six
spec groups and `description` are omitted: the loop only ever rebinds the
accumulator's own attributes or extends the accumulator's own
(deep-copied) lists, so no other input object can be written through. -/

structure BikeRef where
  engine : Option ℕ
  transmission : Option ℕ
  chassis : Option ℕ
  dimensions : Option ℕ
  performance : Option ℕ
  electrical : Option ℕ
  description : Option String
deriving DecidableEq

structure PageRef where
  bike_data : BikeRef
  page_type : String
deriving DecidableEq

abbrev Store (α : Type) : Type := List (List (Option α))

def refGroup (g : SpecGroup) (b : BikeRef) : Option ℕ :=
  match g with
  | .engine => b.engine
  | .transmission => b.transmission
  | .chassis => b.chassis
  | .dimensions => b.dimensions
  | .performance => b.performance
  | .electrical => b.electrical

/-- Stable descending insertion on page references (same key as
`insertDesc`). -/
def insertDescR (x : PageRef) : List PageRef → List PageRef
  | [] => [x]
  | y :: t =>
    if page_type_priority x.page_type ≤ page_type_priority y.page_type then
      y :: insertDescR x t
    else
      x :: y :: t

/-- `pages_data.sort(key=…, reverse=True)` on page references. -/
def pySortDescR (l : List PageRef) : List PageRef :=
  l.foldl (fun acc x => insertDescR x acc) []

/-- Allocate a fresh copy of the object behind `p` (deep copy of one
optional group). -/
def allocCopy {α : Type} (store : Store α) (p : Option ℕ) : Option ℕ × Store α :=
  match p with
  | none => (none, store)
  | some a => (some store.length, store ++ [store.getD a []])

/-- `bike_data.model_copy(deep=True)` restricted to the six group objects. -/
def deepCopyRef {α : Type} (store : Store α) (b : BikeRef) : BikeRef × Store α :=
  let r1 := allocCopy store b.engine
  let r2 := allocCopy r1.2 b.transmission
  let r3 := allocCopy r2.2 b.chassis
  let r4 := allocCopy r3.2 b.dimensions
  let r5 := allocCopy r4.2 b.performance
  let r6 := allocCopy r5.2 b.electrical
  (⟨r1.1, r2.1, r3.1, r4.1, r5.1, r6.1, b.description⟩, r6.2)

/-- `DataMerger._merge_specs` on the heap: `None` accumulator group
returns the incoming pointer (aliasing an input object); otherwise the
fill writes into the accumulator's object in place. -/
def merge_specs_heap {α : Type} (store : Store α) (p1 p2 : Option ℕ) : Option ℕ × Store α :=
  match p1 with
  | none => (p2, store)
  | some a1 =>
    match p2 with
    | none => (some a1, store)
    | some a2 => (some a1, store.set a1 (mergeSpecFields (store.getD a1 []) (store.getD a2 [])))

/-- One loop iteration of `merge_bike_data` on the heap; the spec-group
mutations precede the description step, so they persist even when it
raises. -/
def mergeStepHeap {α : Type} (s : Store α) (acc : BikeRef) (page : PageRef) :
    Option BikeRef × Store α :=
  let r1 := merge_specs_heap s acc.engine page.bike_data.engine
  let r2 := merge_specs_heap r1.2 acc.transmission page.bike_data.transmission
  let r3 := merge_specs_heap r2.2 acc.chassis page.bike_data.chassis
  let r4 := merge_specs_heap r3.2 acc.dimensions page.bike_data.dimensions
  let r5 := merge_specs_heap r4.2 acc.performance page.bike_data.performance
  let r6 := merge_specs_heap r5.2 acc.electrical page.bike_data.electrical
  (match pyDescMerge acc.description page.bike_data.description with
   | none => none
   | some d => some ⟨r1.1, r2.1, r3.1, r4.1, r5.1, r6.1, d⟩, r6.2)

/-- The merge loop on the heap. -/
def mergeFromHeap {α : Type} (s : Store α) (acc : BikeRef) :
    List PageRef → Option BikeRef × Store α
  | [] => (some acc, s)
  | p :: t =>
    match mergeStepHeap s acc p with
    | (none, s2) => (none, s2)
    | (some acc2, s2) => mergeFromHeap s2 acc2 t

/-- `DataMerger.merge_bike_data` on the heap (result record and final
store; `none` record models an uncaught exception, whose partial
mutations remain in the store). -/
def merge_bike_data_heap {α : Type} (store : Store α) (pages : List PageRef) :
    Option BikeRef × Store α :=
  match pages with
  | [] => (none, store)
  | [p] => (some p.bike_data, store)
  | _ =>
    match pySortDescR pages with
    | [] => (none, store)
    | first :: rest =>
      let c := deepCopyRef store first.bike_data
      mergeFromHeap c.2 c.1 rest

/-- Pointer known to be allocated at or above the watermark `N`. -/
def ptrGE (N : ℕ) (p : Option ℕ) : Prop := ∃ x, p = some x ∧ N ≤ x

/-- Records used in the C10 counterexample: the top-priority record's
engine group is `None`, the second record's engine object (address 0) is
all-unset, the third record's engine object (address 1) has its first
field set. -/
def storeC : Store ℕ :=
  [List.replicate 13 (none : Option ℕ), (List.replicate 13 (none : Option ℕ)).set 0 (some 7)]

def refA : BikeRef := ⟨none, none, none, none, none, none, none⟩

def refB : BikeRef := ⟨some 0, none, none, none, none, none, none⟩

def refC : BikeRef := ⟨some 1, none, none, none, none, none, none⟩

def psHC : List PageRef := [⟨refA, "specs"⟩, ⟨refB, "main"⟩, ⟨refC, "gallery"⟩]

/-- Store and group for the C10 witness: two records whose six group
objects live at addresses 0–5 and 6–11. -/
def mkRefW (base : ℕ) : BikeRef :=
  ⟨some base, some (base + 1), some (base + 2), some (base + 3), some (base + 4),
    some (base + 5), none⟩

def storeW : Store ℕ :=
  List.replicate 12 (List.replicate 13 (none : Option ℕ))

def psHW : List PageRef := [⟨mkRefW 0, "specs"⟩, ⟨mkRefW 6, "main"⟩]

/-! ## `src/downloaders/image_downloader.py` — content-addressed download

`ImageDownloader.download_image` fetches a URL, hashes the bytes with
SHA-256, and skips the write when the hash is already in the run's
`image_hashes` set.  The hash function is an abstract parameter (the
claims quantify over it); bytes are `List ℕ`.  `DLState.files` is the log
of `(path, bytes)` pairs written to disk.  A call's network outcome is
supplied in the call record: `none` models an exception (caught, logged,
`None` returned), `some (status, bytes)` a completed response. -/

structure DLCall where
  url : String
  manufacturer : String
  model : String
  year : ℤ
  index : ℕ
  response : Option (ℕ × List ℕ)
deriving DecidableEq

structure DLState where
  image_hashes : List String
  files : List (String × List ℕ)
deriving DecidableEq

/-- The empty per-run state (`self.image_hashes = set()`). -/
def initDL : DLState := ⟨[], []⟩

/-- `_sanitize_filename`: drop every character that is not `[\w\s-]`,
strip, replace spaces with underscores. -/
def pySanitize (s : String) : String :=
  String.mk ((pyStrip (s.data.filter
      (fun c => c.isAlphanum ∨ c = '_' ∨ isPySpace c ∨ c = '-'))).map
    (fun c => if c = ' ' then '_' else c))

/-- Extension choice: `.png`/`.webp` substring of the lower-cased URL,
default `jpg`. -/
def extFor (url : String) : String :=
  if pyIn ".png".data (pyLower url.data) then "png"
  else if pyIn ".webp".data (pyLower url.data) then "webp"
  else "jpg"

/-- `f"{index:03d}"`. -/
def pad3 (n : ℕ) : String :=
  if n < 10 then "00" ++ toString n
  else if n < 100 then "0" ++ toString n
  else toString n

/-- The relative path `manufacturer/model/year/filename` returned by
`download_image` (POSIX separators). -/
def dlPath (c : DLCall) : String :=
  c.manufacturer ++ "/" ++ c.model ++ "/" ++ toString c.year ++ "/" ++
    pySanitize (c.manufacturer ++ "_" ++ c.model ++ "_" ++ toString c.year) ++
    "_" ++ pad3 c.index ++ "." ++ extFor c.url

/-- `ImageDownloader.download_image`, parameterised by the hash function. -/
def download_image (hashFn : List ℕ → String) (st : DLState) (c : DLCall) :
    DLState × Option String :=
  match c.response with
  | none => (st, none)
  | some (status, data) =>
    if status ≠ 200 then (st, none)
    else
      let h := hashFn data
      if h ∈ st.image_hashes then (st, none)
      else
        ({ image_hashes := h :: st.image_hashes,
           files := st.files ++ [(dlPath c, data)] }, some (dlPath c))

/-- A run of the downloader: a sequence of `download_image` calls against
one evolving state. -/
def runDownloads (hashFn : List ℕ → String) : List DLCall → DLState → DLState × List (Option String)
  | [], st => (st, [])
  | c :: t, st =>
    let r1 := download_image hashFn st c
    let r2 := runDownloads hashFn t r1.1
    (r2.1, r1.2 :: r2.2)

/-- Constant hash function and two calls used in the C3 witness. -/
def hFnW : List ℕ → String := fun _ => "H"

def cW1 : DLCall := ⟨"http://x/i1.png", "Ducati", "Monster", 2025, 1, some (200, [1])⟩

def cW2 : DLCall := ⟨"http://x/i2.png", "Ducati", "Monster", 2025, 2, some (200, [2])⟩

/-! ## `src/crawler/discovery.py` — discovery run control flow

`discover_all_pages` first probes four candidate home URLs with the
browser; if none loads (403, "Access Denied", or an exception) it raises
`RuntimeError("Could not access website - all URLs blocked")` before any
strategy runs.  Otherwise it runs the strategies in order (sitemap,
hamburger menu, heritage, dropdown, search, link-following from
discovered pages, link-following from key pages); each strategy swallows
its own exceptions and contributes a set of URLs, each yielded after the
`url not in self.visited_urls` filter.  Browser and HTTP I/O are
abstracted into `DiscoveryEnv`; each strategy's contribution is the URL
list it would return (a strategy that cannot access the site contributes
`[]`), in its set-iteration order. -/

structure DiscoveryEnv where
  navOk : String → Bool
  sitemap : List String
  hamburger : List String
  heritage : List String
  dropdown : List String
  search : List String
  followFromPages : List String
  linkFollowing : List String

/-- The four navigation candidates tried before any strategy. -/
def urls_to_try (base_url : String) : List String :=
  [base_url ++ "/ca/en/home", base_url ++ "/us/en/home", base_url ++ "/ww/en/home", base_url]

/-- All strategy contributions in execution order. -/
def strategyUrls (env : DiscoveryEnv) : List String :=
  env.sitemap ++ env.hamburger ++ env.heritage ++ env.dropdown ++ env.search ++
    env.followFromPages ++ env.linkFollowing

/-- `PageDiscoveryEngine.discover_all_pages`: the fatal path and the
yielded URL stream. -/
def discover_all_pages (base_url : String) (env : DiscoveryEnv) (visited : List String) :
    Except String (List String) :=
  if (urls_to_try base_url).any env.navOk then
    .ok ((strategyUrls env).filter (fun u => ¬ u ∈ visited))
  else
    .error "Could not access website - all URLs blocked"

/-- Environment in which every navigation attempt is blocked but the
sitemap strategy would still find a page. -/
def envDenied : DiscoveryEnv :=
  { navOk := fun _ => false,
    sitemap := ["https://www.ducati.com/ca/en/bikes/monster"],
    hamburger := [], heritage := [], dropdown := [], search := [],
    followFromPages := [], linkFollowing := [] }

/-- Environment with the same blocked navigation and no strategy output. -/
def envNoStrategies : DiscoveryEnv :=
  { navOk := fun _ => false,
    sitemap := [], hamburger := [], heritage := [], dropdown := [], search := [],
    followFromPages := [], linkFollowing := [] }

/-! ## `urllib.parse.urlparse` and `PageDiscoveryEngine.normalize_url`

`normalize_url` (discovery.py 240–256) rebuilds
`f"{scheme}://{netloc}{path}"` (+ `?query` when non-empty) from
`urlparse` and lower-cases it, dropping fragment and `;params`.
`urlparse` is modelled after CPython's `urlsplit`/`urlparse`: scheme
split at the first `:` when the prefix is a valid scheme token, netloc
after `//` up to the first `/?#` with the bracket-mismatch `ValueError`
(the 3.11+ bracketed-host content validation is not modelled; inputs
exercised here contain no brackets), fragment split at the first `#`,
query at the first `?`, and `;params` stripped from the last path
segment for schemes in `uses_params`. -/

def isSchemeChar (c : Char) : Bool :=
  isAsciiAlpha c ∨ c.isDigit ∨ c = '+' ∨ c = '-' ∨ c = '.'

def isNetlocDelim (c : Char) : Bool :=
  c = '/' ∨ c = '?' ∨ c = '#'

/-- First character is an ASCII letter (`url[0].isalpha()`). -/
def headAlpha (cs : List Char) : Bool :=
  match cs with
  | c :: _ => isAsciiAlpha c
  | [] => false

/-- Split a list at the first character satisfying `p`: the part before
it and, when found, the part after it (the delimiter removed). -/
def splitFirst (p : Char → Bool) : List Char → List Char × Option (List Char)
  | [] => ([], none)
  | c :: t =>
    if p c then ([], some t)
    else (c :: (splitFirst p t).1, (splitFirst p t).2)

/-- `urllib.parse.uses_params`. -/
def uses_params : List String :=
  ["", "ftp", "hdl", "prospero", "http", "imap", "https", "shttp", "rtsp",
   "rtspu", "sip", "sips", "mms", "sftp", "tel"]

structure ParsedURL where
  scheme : List Char
  netloc : List Char
  path : List Char
  query : List Char
  fragment : List Char
deriving DecidableEq

/-- Fragment stripping: the input up to the first `#`, and what follows it. -/
def fragSplit (rest2 : List Char) : List Char × List Char :=
  match (splitFirst (fun c => c = '#') rest2).2 with
  | some a => ((splitFirst (fun c => c = '#') rest2).1, a)
  | none => (rest2, [])

/-- Query splitting: the input up to the first `?`, and what follows it. -/
def querySplit (u3 : List Char) : List Char × List Char :=
  match (splitFirst (fun c => c = '?') u3).2 with
  | some a => ((splitFirst (fun c => c = '?') u3).1, a)
  | none => (u3, [])

/-- Fragment and query splitting shared by both `urlsplit` branches. -/
def urlsplitRest (scheme netloc rest2 : List Char) : ParsedURL :=
  ⟨scheme, netloc, (querySplit (fragSplit rest2).1).1,
    (querySplit (fragSplit rest2).1).2, (fragSplit rest2).2⟩

/-- Scheme extraction of `urlsplit`: the (lower-cased) scheme when the
prefix before the first `:` is a valid scheme token, paired with the
remaining input. -/
def schemeSplit (cs : List Char) : List Char × List Char :=
  match (splitFirst (fun c => c = ':') cs).2 with
  | some after =>
    if (splitFirst (fun c => c = ':') cs).1 ≠ [] ∧ headAlpha cs = true ∧
        (splitFirst (fun c => c = ':') cs).1.all isSchemeChar = true then
      (pyLower (splitFirst (fun c => c = ':') cs).1, after)
    else (([] : List Char), cs)
  | none => (([] : List Char), cs)

/-- `urllib.parse.urlsplit` (scheme, netloc, fragment, query);
`none` models the `ValueError` on a bracket mismatch in the netloc. -/
def netlocOf (cs : List Char) : List Char :=
  (((schemeSplit cs).2).drop 2).takeWhile (fun c => ¬ isNetlocDelim c)

def restAfterNetloc (cs : List Char) : List Char :=
  (((schemeSplit cs).2).drop 2).dropWhile (fun c => ¬ isNetlocDelim c)

def urlsplitChars (cs : List Char) : Option ParsedURL :=
  if ((schemeSplit cs).2).take 2 = ['/', '/'] then
    if ('[' ∈ netlocOf cs ∧ ¬ ']' ∈ netlocOf cs) ∨
        (']' ∈ netlocOf cs ∧ ¬ '[' ∈ netlocOf cs) then none
    else some (urlsplitRest (schemeSplit cs).1 (netlocOf cs) (restAfterNetloc cs))
  else some (urlsplitRest (schemeSplit cs).1 [] (schemeSplit cs).2)

/-- `_splitparams` applied to the path: drop `;params` from the final
path segment (the part of the result before the first `;` at or after
the last `/`). -/
def lastSegOf (path : List Char) : List Char :=
  (path.reverse.takeWhile (fun c => ¬ (c = '/'))).reverse

def splitParams (path : List Char) : List Char :=
  if '/' ∈ path then
    match (splitFirst (fun c => c = ';') (lastSegOf path)).2 with
    | some _ =>
      path.take (path.length - (lastSegOf path).length) ++
        (splitFirst (fun c => c = ';') (lastSegOf path)).1
    | none => path
  else
    match (splitFirst (fun c => c = ';') path).2 with
    | some _ => (splitFirst (fun c => c = ';') path).1
    | none => path

/-- `urllib.parse.urlparse`: `urlsplit` plus params splitting for
schemes in `uses_params`. -/
def urlparseChars (cs : List Char) : Option ParsedURL :=
  match urlsplitChars cs with
  | none => none
  | some r =>
    if String.mk r.scheme ∈ uses_params ∧ ';' ∈ r.path then
      some { r with path := splitParams r.path }
    else some r

/-- `path.rstrip('/')`. -/
def rstripSlash (cs : List Char) : List Char :=
  (cs.reverse.dropWhile (fun c => c = '/')).reverse

/-- `PageDiscoveryEngine.normalize_url`; `none` models the `ValueError`
propagated out of `urlparse`. -/
def rebuild (r : ParsedURL) : List Char :=
  if r.query ≠ [] then
    (r.scheme ++ ':' :: '/' :: '/' :: (r.netloc ++ rstripSlash r.path)) ++
      '?' :: r.query
  else r.scheme ++ ':' :: '/' :: '/' :: (r.netloc ++ rstripSlash r.path)

def normalize_url (u : String) : Option String :=
  match urlparseChars u.data with
  | none => none
  | some r => some (String.mk (pyLower (rebuild r)))

/-- Component-wise lower-casing of a parse result. -/
def lowerP (r : ParsedURL) : ParsedURL :=
  ⟨pyLower r.scheme, pyLower r.netloc, pyLower r.path, pyLower r.query,
    pyLower r.fragment⟩

/-! ## Helper lemmas for the units model -/

theorem removeAllFuel_sublist (pat : List Char) :
    ∀ (fuel : ℕ) (cs : List Char), (removeAllFuel pat fuel cs).Sublist cs := by
  intro fuel
  induction fuel with
  | zero => intro cs; exact (List.nil_sublist cs)
  | succ n ih =>
    intro cs
    cases cs with
    | nil => exact List.Sublist.refl []
    | cons c t =>
      rw [removeAllFuel]
      by_cases h : pat ≠ [] ∧ pat.isPrefixOf (c :: t) = true
      · rw [if_pos h]
        exact (ih _).trans (List.drop_sublist _ _)
      · rw [if_neg h]
        exact (ih t).cons₂ c

theorem removeAll_sublist (pat cs : List Char) : (removeAll pat cs).Sublist cs :=
  removeAllFuel_sublist pat cs.length cs

theorem mem_pyStrip {c : Char} {cs : List Char} (h : c ∈ pyStrip cs) : c ∈ cs := by
  unfold pyStrip at h
  rw [List.mem_reverse] at h
  have h1 : c ∈ (cs.dropWhile isPySpace).reverse :=
    (List.dropWhile_sublist isPySpace).subset h
  rw [List.mem_reverse] at h1
  exact (List.dropWhile_sublist isPySpace).subset h1

theorem searchNumUnit_eq_none {cs : List Char} (h : ∀ c ∈ cs, ¬ (isNumChar c = true)) :
    searchNumUnit cs = none := by
  induction cs with
  | nil => rfl
  | cons c t ih =>
    have hc : ¬ (isNumChar c = true) := h c (List.mem_cons_self c t)
    have hm : matchNumUnitAt (c :: t) = none := by
      unfold matchNumUnitAt
      simp [List.takeWhile_cons, hc]
    rw [searchNumUnit, hm]
    exact ih (fun x hx => h x (List.mem_cons_of_mem _ hx))

theorem searchBareNum_eq_none {cs : List Char} (h : ∀ c ∈ cs, ¬ (isNumChar c = true)) :
    searchBareNum cs = none := by
  induction cs with
  | nil => rfl
  | cons c t ih =>
    have hc : ¬ (isNumChar c = true) := h c (List.mem_cons_self c t)
    rw [searchBareNum, if_neg hc]
    exact ih (fun x hx => h x (List.mem_cons_of_mem _ hx))

theorem not_mem_both {x : String} {src tgt : List String}
    (h : ∀ s ∈ src, ¬ s ∈ tgt) : ¬ (x ∈ src ∧ x ∈ tgt) :=
  fun hx => h x hx.1 hx.2

theorem mem_allSourceUnits {x : String} {src : List String}
    (hsub : ∀ s ∈ src, s ∈ allSourceUnits) (hx : x ∈ src) : x ∈ allSourceUnits :=
  hsub x hx

theorem pyFloatNum?_no_dot {cs : List Char} (hd : cs.any Char.isDigit = true)
    (hnd : ∀ c ∈ cs, ¬ (c = '.')) : pyFloatNum? cs = some ((digitsVal cs : ℚ)) := by
  have hp : ∀ c ∈ cs, (fun c => decide (¬ (c = '.'))) c = true := by
    intro c hc
    simpa using hnd c hc
  have htake : cs.takeWhile (fun c => decide (¬ (c = '.'))) = cs :=
    List.takeWhile_eq_self_iff.mpr hp
  have hdrop : cs.dropWhile (fun c => decide (¬ (c = '.'))) = [] :=
    List.dropWhile_eq_nil_iff.mpr hp
  have hfil : (cs.filter (fun c => decide (c = '.'))).length ≤ 1 := by
    have : cs.filter (fun c => decide (c = '.')) = [] := by
      rw [List.filter_eq_nil_iff]
      intro c hc
      simpa using hnd c hc
    rw [this]
    simp
  unfold pyFloatNum?
  rw [if_pos ⟨hd, hfil⟩]
  rw [htake, hdrop]
  norm_num [digitsVal]

theorem pyRound_hp_100 : pyRound 2 ((100 : ℚ) * HP_TO_KW) = 74.57 := by
  have hx : (100 : ℚ) * HP_TO_KW * 10 ^ (2 : ℕ) = 7457 := by norm_num [HP_TO_KW]
  simp only [pyRound]
  rw [hx]
  norm_num

theorem pyRound_lbs_440 : pyRound 2 ((440 : ℚ) * LBS_TO_KG) = 199.58 := by
  have hx : (440 : ℚ) * LBS_TO_KG * 10 ^ (2 : ℕ) = 2494756 / 125 := by norm_num [LBS_TO_KG]
  have hf : ⌊(2494756 / 125 : ℚ)⌋ = 19958 := by norm_num
  simp only [pyRound]
  rw [hx, hf]
  norm_num

theorem pyRound_mph_100 : pyRound 2 ((100 : ℚ) * MPH_TO_KMH) = 160.93 := by
  have hx : (100 : ℚ) * MPH_TO_KMH * 10 ^ (2 : ℕ) = 80467 / 5 := by norm_num [MPH_TO_KMH]
  have hf : ⌊(80467 / 5 : ℚ)⌋ = 16093 := by norm_num
  simp only [pyRound]
  rw [hx, hf]
  norm_num

/-! ## Claim C6 -/

/-- **C6**: `parse_spec_value` returns `(175.0, "kg")` for `"150-200 kg"`
(midpoint of a range), `(450.0, "lbs")` for `"~450 lbs"` (approximation
marker stripped), and `(null, null)` for every input in which no
number-with-unit and no bare number token occurs (no `[\d.]` character),
such as `"invalid"`. -/
theorem claim6_parse_spec_value :
    parse_spec_value "150-200 kg" = some (some 175, some "kg") ∧
    parse_spec_value "~450 lbs" = some (some 450, some "lbs") ∧
    parse_spec_value "invalid" = some (none, none) ∧
    ∀ s : String, (∀ c ∈ s.data, ¬ (isNumChar c = true)) →
      parse_spec_value s = some (none, none) := by
  refine ⟨?_, ?_, by decide, ?_⟩
  · have hs : searchNumUnit (pyStrip (removeAll "approximately".data
        (removeAll "approx.".data (removeAll "~".data "150-200 kg".data)))) =
        some ("150".data, some "200".data, "kg".data) := by decide
    have h1 : pyFloatNum? "150".data = some 150 := by
      rw [pyFloatNum?_no_dot (by decide) (by decide)]
      norm_num [show digitsVal "150".data = 150 from by decide]
    have h2 : pyFloatNum? "200".data = some 200 := by
      rw [pyFloatNum?_no_dot (by decide) (by decide)]
      norm_num [show digitsVal "200".data = 200 from by decide]
    have hstr : String.mk (pyStrip "kg".data) = "kg" := by decide
    simp only [parse_spec_value, hs, h1, h2, hstr]
    norm_num
  · have hs : searchNumUnit (pyStrip (removeAll "approximately".data
        (removeAll "approx.".data (removeAll "~".data "~450 lbs".data)))) =
        some ("450".data, none, "lbs".data) := by decide
    have h1 : pyFloatNum? "450".data = some 450 := by
      rw [pyFloatNum?_no_dot (by decide) (by decide)]
      norm_num [show digitsVal "450".data = 450 from by decide]
    have hstr : String.mk (pyStrip "lbs".data) = "lbs" := by decide
    simp only [parse_spec_value, hs, h1, hstr]
  intro s hs
  have hmem : ∀ c ∈ pyStrip (removeAll "approximately".data
      (removeAll "approx.".data (removeAll "~".data s.data))), ¬ (isNumChar c = true) := by
    intro c hc
    exact hs c ((removeAll_sublist _ _).subset ((removeAll_sublist _ _).subset
      ((removeAll_sublist _ _).subset (mem_pyStrip hc))))
  simp only [parse_spec_value]
  rw [searchNumUnit_eq_none hmem, searchBareNum_eq_none hmem]

/-- Witness for C6: the universal part applied at the concrete
digit-free input `"n/a"`. -/
theorem claim6_parse_spec_value_witness : parse_spec_value "n/a" = some (none, none) :=
  claim6_parse_spec_value.2.2.2 "n/a" (by decide)

/-! ## Claim C7 -/

/-- **C7**: `convert_to_metric` applies the fixed factors (hp→kW ×0.7457,
lb-ft→Nm ×1.3558, in→mm ×25.4, ft→mm ×304.8, lb→kg ×0.453592,
mph→km/h ×1.60934, US gal→L ×3.78541, mpg→L/100km via 235.214/mpg),
rounding to 2 decimals except millimeter conversions (1 decimal); it
returns the value unchanged when the units are equal and `null` when no
rule matches; in particular `convert_to_metric(100,"hp","kW") = 74.57`,
`convert_to_metric(440,"lbs","kg") = 199.58` and
`convert_to_metric(100,"mph","km/h") = 160.93`. -/
theorem claim7_convert_to_metric :
    convert_to_metric 100 "hp" "kW" = some 74.57 ∧
    convert_to_metric 440 "lbs" "kg" = some 199.58 ∧
    convert_to_metric 100 "mph" "km/h" = some 160.93 ∧
    (∀ v : ℚ, convert_to_metric v "hp" "kW" = some (pyRound 2 (v * HP_TO_KW))) ∧
    (∀ v : ℚ, convert_to_metric v "lb-ft" "Nm" = some (pyRound 2 (v * LBFT_TO_NM))) ∧
    (∀ v : ℚ, convert_to_metric v "in" "mm" = some (pyRound 1 (v * INCH_TO_MM))) ∧
    (∀ v : ℚ, convert_to_metric v "ft" "mm" = some (pyRound 1 (v * FOOT_TO_MM))) ∧
    (∀ v : ℚ, convert_to_metric v "lb" "kg" = some (pyRound 2 (v * LBS_TO_KG))) ∧
    (∀ v : ℚ, convert_to_metric v "mph" "km/h" = some (pyRound 2 (v * MPH_TO_KMH))) ∧
    (∀ v : ℚ, convert_to_metric v "gal" "L" = some (pyRound 2 (v * GALLON_TO_LITER))) ∧
    (∀ v : ℚ, 0 < v →
      convert_to_metric v "mpg" "L/100km" = some (pyRound 2 (235.214 / v))) ∧
    (∀ (v : ℚ) (u : String), convert_to_metric v u u = some v) ∧
    (∀ (v : ℚ) (u t : String), pyNormToken u ∉ allSourceUnits →
      pyNormToken u ≠ pyNormToken t → convert_to_metric v u t = none) := by
  refine ⟨?_, ?_, ?_, ?_, ?_, ?_, ?_, ?_, ?_, ?_, ?_, ?_, ?_⟩
  · simp only [convert_to_metric]
    rw [if_pos (by decide)]
    show some (pyRound 2 ((100 : ℚ) * HP_TO_KW)) = some 74.57
    rw [pyRound_hp_100]
  · simp only [convert_to_metric]
    rw [if_neg (by decide), if_neg (by decide), if_neg (by decide), if_neg (by decide),
      if_pos (by decide)]
    show some (pyRound 2 ((440 : ℚ) * LBS_TO_KG)) = some 199.58
    rw [pyRound_lbs_440]
  · simp only [convert_to_metric]
    rw [if_neg (by decide), if_neg (by decide), if_neg (by decide), if_neg (by decide),
      if_neg (by decide), if_pos (by decide)]
    show some (pyRound 2 ((100 : ℚ) * MPH_TO_KMH)) = some 160.93
    rw [pyRound_mph_100]
  · intro v
    simp only [convert_to_metric]
    rw [if_pos (by decide)]
    rfl
  · intro v
    simp only [convert_to_metric]
    rw [if_neg (by decide), if_pos (by decide)]
    rfl
  · intro v
    simp only [convert_to_metric]
    rw [if_neg (by decide), if_neg (by decide), if_pos (by decide)]
    rfl
  · intro v
    simp only [convert_to_metric]
    rw [if_neg (by decide), if_neg (by decide), if_neg (by decide), if_pos (by decide)]
    rfl
  · intro v
    simp only [convert_to_metric]
    rw [if_neg (by decide), if_neg (by decide), if_neg (by decide), if_neg (by decide),
      if_pos (by decide)]
    rfl
  · intro v
    simp only [convert_to_metric]
    rw [if_neg (by decide), if_neg (by decide), if_neg (by decide), if_neg (by decide),
      if_neg (by decide), if_pos (by decide)]
    rfl
  · intro v
    simp only [convert_to_metric]
    rw [if_neg (by decide), if_neg (by decide), if_neg (by decide), if_neg (by decide),
      if_neg (by decide), if_neg (by decide), if_pos (by decide)]
    rfl
  · intro v hv
    simp only [convert_to_metric]
    rw [if_neg (by decide), if_neg (by decide), if_neg (by decide), if_neg (by decide),
      if_neg (by decide), if_neg (by decide), if_neg (by decide), if_pos (by decide)]
    have h5 : ¬ (v ≤ 0) := not_le.mpr hv
    have h235 : (235.214 : ℚ) = 235214 / 1000 := by norm_num
    rw [convert_fuel_consumption_mpg_to_l100km, if_neg h5, h235]
  · intro v u
    simp only [convert_to_metric]
    rw [if_neg (not_mem_both (by decide)), if_neg (not_mem_both (by decide)),
      if_neg (not_mem_both (by decide)), if_neg (not_mem_both (by decide)),
      if_neg (not_mem_both (by decide)), if_neg (not_mem_both (by decide)),
      if_neg (not_mem_both (by decide)), if_neg (not_mem_both (by decide))]
    simp
  · intro v u t hu hne
    simp only [convert_to_metric]
    rw [if_neg (fun h => hu (mem_allSourceUnits (by decide) h.1)),
      if_neg (fun h => hu (mem_allSourceUnits (by decide) h.1)),
      if_neg (fun h => hu (mem_allSourceUnits (by decide) h.1)),
      if_neg (fun h => hu (mem_allSourceUnits (by decide) h.1)),
      if_neg (fun h => hu (mem_allSourceUnits (by decide) h.1)),
      if_neg (fun h => hu (mem_allSourceUnits (by decide) h.1)),
      if_neg (fun h => hu (mem_allSourceUnits (by decide) h.1)),
      if_neg (fun h => hu (mem_allSourceUnits (by decide) h.1)),
      if_neg hne]

/-- Witness for C7: the hypothesis-bearing components applied at concrete
inputs (mpg conversion at 50 mpg, identity at `"zzz"`, no-rule case). -/
theorem claim7_convert_to_metric_witness :
    convert_to_metric 50 "mpg" "L/100km" = some (pyRound 2 (235.214 / 50)) ∧
    convert_to_metric 5 "zzz" "zzz" = some 5 ∧
    convert_to_metric 5 "zzz" "qqq" = none :=
  ⟨claim7_convert_to_metric.2.2.2.2.2.2.2.2.2.2.1 50 (by norm_num),
   claim7_convert_to_metric.2.2.2.2.2.2.2.2.2.2.2.1 5 "zzz",
   claim7_convert_to_metric.2.2.2.2.2.2.2.2.2.2.2.2 5 "zzz" "qqq" (by decide) (by decide)⟩

/-! ## Helper lemmas for the classifier -/

theorem find?_append_cons {α : Type} (f : α → Bool) :
    ∀ (pre : List α) (p : α) (suf : List α), (∀ q ∈ pre, f q = false) → f p = true →
      (pre ++ p :: suf).find? f = some p := by
  intro pre
  induction pre with
  | nil =>
    intro p suf _ hp
    simp [List.find?, hp]
  | cons a t ih =>
    intro p suf hpre hp
    have ha : f a = false := hpre a (List.mem_cons_self a t)
    rw [List.cons_append, List.find?_cons_of_neg _ (by simp [ha]),
      ih p suf (fun q hq => hpre q (List.mem_cons_of_mem a hq)) hp]

/-! ## Claim C8 -/

/-- **C8**: `get_page_type` always returns one of
`{main, specs, gallery, features, insights, stories, other}`; it walks
the fixed ordered indicator table, the first page type one of whose
keywords occurs in the URL or the content wins, and `main` is the
default when no row matches. -/
theorem claim8_get_page_type :
    (∀ url content : String, get_page_type url content ∈
      ["main", "specs", "gallery", "features", "insights", "stories", "other"]) ∧
    (∀ (url content : String) (pre : List (String × List String))
      (p : String × List String) (suf : List (String × List String)),
      page_type_indicators = pre ++ p :: suf →
      (∀ q ∈ pre, typeMatches (pyLower url.data) (pyLower content.data) q = false) →
      typeMatches (pyLower url.data) (pyLower content.data) p = true →
      get_page_type url content = p.1) ∧
    (∀ url content : String,
      (∀ q ∈ page_type_indicators,
        typeMatches (pyLower url.data) (pyLower content.data) q = false) →
      get_page_type url content = "main") := by
  refine ⟨?_, ?_, ?_⟩
  · intro url content
    unfold get_page_type
    cases hf : page_type_indicators.find?
        (typeMatches (pyLower url.data) (pyLower content.data)) with
    | none => decide
    | some p =>
      have hp := List.mem_of_find?_eq_some hf
      simp only [page_type_indicators, List.mem_cons, List.not_mem_nil, or_false] at hp
      rcases hp with rfl | rfl | rfl | rfl | rfl | rfl <;> decide
  · intro url content pre p suf htable hpre hp
    unfold get_page_type
    rw [htable, find?_append_cons _ pre p suf hpre hp]
  · intro url content hall
    unfold get_page_type
    rw [List.find?_eq_none.mpr (fun q hq => by simp [hall q hq])]

/-- Witness for C8: the first-match component classifies a `tech-data`
URL as `specs`, and the default component classifies a bare bike URL as
`main`. -/
theorem claim8_get_page_type_witness :
    get_page_type "https://x.com/bikes/m/tech-data" "" = "specs" ∧
    get_page_type "https://x.com/bikes/m" "" = "main" :=
  ⟨claim8_get_page_type.2.1 "https://x.com/bikes/m/tech-data" "" []
      ("specs", ["specification", "spec", "technical", "tech-data"])
      [("gallery", ["gallery", "photos", "images"]),
       ("features", ["features", "equipment", "technology"]),
       ("insights", ["insights", "insight"]),
       ("stories", ["stories", "story", "travel"]),
       ("main", ["overview", "details", "home"])]
      rfl (fun q hq => absurd hq (List.not_mem_nil q)) (by decide),
   claim8_get_page_type.2.2 "https://x.com/bikes/m" "" (by decide)⟩

/-! ## Helper lemmas for the merger value model -/

theorem mergeSpecFields_getD_keep {α : Type} :
    ∀ {l1 l2 : List (Option α)} {i : ℕ} {a : α},
      l1.getD i none = some a → (mergeSpecFields l1 l2).getD i none = some a := by
  intro l1
  induction l1 with
  | nil =>
    intro l2 i a h
    simp [List.getD] at h
  | cons x t ih =>
    intro l2 i a h
    cases l2 with
    | nil =>
      cases i with
      | zero =>
        simp only [List.getD_cons_zero] at h
        simp [mergeSpecFields, h, fillField]
      | succ n =>
        simp only [List.getD_cons_succ] at h
        simpa [mergeSpecFields] using @ih [] n a h
    | cons y t2 =>
      cases i with
      | zero =>
        simp only [List.getD_cons_zero] at h
        simp [mergeSpecFields, h, fillField]
      | succ n =>
        simp only [List.getD_cons_succ] at h
        simpa [mergeSpecFields] using @ih t2 n a h

theorem fieldVal_merge_keep {α : Type} {s1 s2 : Option (List (Option α))} {i : ℕ} {a : α}
    (h : fieldVal s1 i = some a) : fieldVal (merge_specs s1 s2) i = some a := by
  cases s1 with
  | none => simp [fieldVal] at h
  | some l1 =>
    cases s2 with
    | none => simpa [merge_specs, fieldVal] using h
    | some l2 =>
      simp only [fieldVal] at h
      simpa [merge_specs, fieldVal] using mergeSpecFields_getD_keep h

theorem mergeStep_groupOf {α : Type} (g : SpecGroup) {acc m' : BikeData α} {p : PageData α}
    (h : mergeStep acc p = some m') :
    groupOf g m' = merge_specs (groupOf g acc) (groupOf g p.bike_data) := by
  simp only [mergeStep] at h
  cases hd : pyDescMerge acc.description p.bike_data.description with
  | none => rw [hd] at h; exact absurd h (by simp)
  | some d =>
    rw [hd] at h
    have := Option.some.inj h
    subst this
    cases g <;> rfl

theorem insertDesc_perm {α : Type} (x : PageData α) :
    ∀ (l : List (PageData α)), (insertDesc x l).Perm (x :: l) := by
  intro l
  induction l with
  | nil => exact List.Perm.refl _
  | cons y t ih =>
    rw [insertDesc]
    by_cases h : page_type_priority x.page_type ≤ page_type_priority y.page_type
    · rw [if_pos h]
      exact (ih.cons y).trans (List.Perm.swap x y t)
    · rw [if_neg h]

theorem pySortDesc_perm_aux {α : Type} :
    ∀ (l acc : List (PageData α)),
      (l.foldl (fun a x => insertDesc x a) acc).Perm (acc ++ l) := by
  intro l
  induction l with
  | nil => intro acc; simp
  | cons x t ih =>
    intro acc
    rw [List.foldl_cons]
    refine (ih (insertDesc x acc)).trans ?_
    refine (((insertDesc_perm x acc).append_right t).trans ?_)
    exact List.perm_middle.symm

theorem pySortDesc_perm {α : Type} (l : List (PageData α)) : (pySortDesc l).Perm l := by
  simpa [pySortDesc] using pySortDesc_perm_aux l []

theorem insertDesc_pairwise {α : Type} (x : PageData α) :
    ∀ {l : List (PageData α)},
      l.Pairwise (fun a b => page_type_priority b.page_type ≤ page_type_priority a.page_type) →
      (insertDesc x l).Pairwise
        (fun a b => page_type_priority b.page_type ≤ page_type_priority a.page_type) := by
  intro l
  induction l with
  | nil => intro _; simp [insertDesc]
  | cons y t ih =>
    intro h
    rw [List.pairwise_cons] at h
    rw [insertDesc]
    by_cases hc : page_type_priority x.page_type ≤ page_type_priority y.page_type
    · rw [if_pos hc, List.pairwise_cons]
      constructor
      · intro z hz
        rcases List.mem_cons.mp ((insertDesc_perm x t).mem_iff.mp hz) with rfl | hzt
        · exact hc
        · exact h.1 z hzt
      · exact ih h.2
    · rw [if_neg hc, List.pairwise_cons]
      constructor
      · intro z hz
        rcases List.mem_cons.mp hz with rfl | hzt
        · exact le_of_lt (lt_of_not_le hc)
        · exact le_trans (h.1 z hzt) (le_of_lt (lt_of_not_le hc))
      · rw [List.pairwise_cons]
        exact h

theorem pySortDesc_pairwise {α : Type} (l : List (PageData α)) :
    (pySortDesc l).Pairwise
      (fun a b => page_type_priority b.page_type ≤ page_type_priority a.page_type) := by
  suffices h : ∀ (l acc : List (PageData α)),
      acc.Pairwise (fun a b => page_type_priority b.page_type ≤ page_type_priority a.page_type) →
      (l.foldl (fun a x => insertDesc x a) acc).Pairwise
        (fun a b => page_type_priority b.page_type ≤ page_type_priority a.page_type) by
    exact h l [] (List.Pairwise.nil)
  intro l
  induction l with
  | nil => intro acc hacc; exact hacc
  | cons x t ih =>
    intro acc hacc
    rw [List.foldl_cons]
    exact ih _ (insertDesc_pairwise x hacc)

theorem find?_eq_some_split {α : Type} (f : α → Bool) :
    ∀ {l : List α} {x : α}, l.find? f = some x →
      ∃ pre suf, l = pre ++ x :: suf ∧ ∀ y ∈ pre, f y = false := by
  intro l
  induction l with
  | nil => intro x h; simp [List.find?] at h
  | cons a t ih =>
    intro x h
    by_cases ha : f a = true
    · rw [List.find?_cons_of_pos _ ha] at h
      refine ⟨[], t, ?_, by simp⟩
      rw [Option.some.inj h]
      rfl
    · rw [List.find?_cons_of_neg _ (by simpa using ha)] at h
      obtain ⟨pre, suf, heq, hpre⟩ := ih h
      refine ⟨a :: pre, suf, by rw [heq]; rfl, ?_⟩
      intro y hy
      rcases List.mem_cons.mp hy with rfl | hyp
      · simpa using ha
      · exact hpre y hyp

theorem wf_groupOf {α : Type} {b : BikeData α} (h : WFBike b = true) (g : SpecGroup) :
    wfGroup (groupOf g b) (groupLen g) = true := by
  simp only [WFBike, Bool.and_eq_true] at h
  cases g <;> simp only [groupOf, groupLen] <;> tauto

theorem mergeSpecFields_length {α : Type} :
    ∀ (l1 l2 : List (Option α)), (mergeSpecFields l1 l2).length = l1.length := by
  intro l1
  induction l1 with
  | nil => intro l2; cases l2 <;> rfl
  | cons a t ih =>
    intro l2
    cases l2 with
    | nil => simp [mergeSpecFields, ih]
    | cons b t2 => simp [mergeSpecFields, ih]

theorem merge_specs_wf {α : Type} {s1 s2 : Option (List (Option α))} {n : ℕ}
    (h1 : wfGroup s1 n = true) (h2 : wfGroup s2 n = true) :
    wfGroup (merge_specs s1 s2) n = true := by
  cases s1 with
  | none => simpa [merge_specs] using h2
  | some l1 =>
    cases s2 with
    | none => simpa [merge_specs] using h1
    | some l2 =>
      simp only [wfGroup] at h1
      simp [merge_specs, wfGroup, mergeSpecFields_length, h1]

theorem mergeStep_wf {α : Type} {acc m' : BikeData α} {p : PageData α}
    (hacc : WFBike acc = true) (hp : WFBike p.bike_data = true)
    (h : mergeStep acc p = some m') : WFBike m' = true := by
  have hg : ∀ g, wfGroup (groupOf g m') (groupLen g) = true := by
    intro g
    rw [mergeStep_groupOf g h]
    exact merge_specs_wf (wf_groupOf hacc g) (wf_groupOf hp g)
  simp only [WFBike, Bool.and_eq_true]
  exact ⟨⟨⟨⟨⟨hg .engine, hg .transmission⟩, hg .chassis⟩, hg .dimensions⟩,
    hg .performance⟩, hg .electrical⟩

theorem mergeFrom_wf {α : Type} :
    ∀ (pages : List (PageData α)) (acc m : BikeData α), WFBike acc = true →
      (∀ p ∈ pages, WFBike p.bike_data = true) → mergeFrom acc pages = some m →
      WFBike m = true := by
  intro pages
  induction pages with
  | nil =>
    intro acc m hacc _ h
    simp only [mergeFrom, Option.some.injEq] at h
    exact h ▸ hacc
  | cons p t ih =>
    intro acc m hacc hp h
    simp only [mergeFrom] at h
    cases hs : mergeStep acc p with
    | none => rw [hs] at h; exact Option.noConfusion h
    | some acc2 =>
      rw [hs] at h
      exact ih acc2 m (mergeStep_wf hacc (hp p (List.mem_cons_self p t)) hs)
        (fun q hq => hp q (List.mem_cons_of_mem p hq)) h

theorem mergeSpecFields_getD_lt {α : Type} :
    ∀ (l1 l2 : List (Option α)) (i : ℕ), i < l1.length →
      (mergeSpecFields l1 l2).getD i none = fillField (l1.getD i none) (l2.getD i none) := by
  intro l1
  induction l1 with
  | nil => intro l2 i hi; simp at hi
  | cons a t ih =>
    intro l2 i hi
    cases l2 with
    | nil =>
      cases i with
      | zero => simp [mergeSpecFields]
      | succ n =>
        simp only [mergeSpecFields, List.getD_cons_succ]
        have := ih [] n (by simpa using Nat.lt_of_succ_lt_succ hi)
        simpa using this
    | cons b t2 =>
      cases i with
      | zero => simp [mergeSpecFields]
      | succ n =>
        simp only [mergeSpecFields, List.getD_cons_succ]
        exact ih t2 n (by simpa using Nat.lt_of_succ_lt_succ hi)

theorem fieldVal_merge_specs {α : Type} {s1 s2 : Option (List (Option α))} {i n : ℕ}
    (h1 : wfGroup s1 n = true) (hi : i < n) :
    fieldVal (merge_specs s1 s2) i = fillField (fieldVal s1 i) (fieldVal s2 i) := by
  cases s1 with
  | none => simp [merge_specs, fieldVal, fillField]
  | some l1 =>
    have hlen : l1.length = n := by simpa [wfGroup] using h1
    cases s2 with
    | none =>
      simp only [merge_specs, fieldVal]
      cases hv : l1.getD i none <;> simp [fillField]
    | some l2 =>
      simp only [merge_specs, fieldVal]
      exact mergeSpecFields_getD_lt l1 l2 i (hlen ▸ hi)

theorem mergeFrom_fieldVal {α : Type} (g : SpecGroup) (i : ℕ) (hi : i < groupLen g) :
    ∀ (pages : List (PageData α)) (acc m : BikeData α), WFBike acc = true →
      (∀ p ∈ pages, WFBike p.bike_data = true) → mergeFrom acc pages = some m →
      fieldVal (groupOf g m) i =
        pages.foldl (fun c p => fillField c (fieldVal (groupOf g p.bike_data) i))
          (fieldVal (groupOf g acc) i) := by
  intro pages
  induction pages with
  | nil =>
    intro acc m _ _ h
    simp only [mergeFrom, Option.some.injEq] at h
    rw [← h]
    rfl
  | cons p t ih =>
    intro acc m hacc hp h
    simp only [mergeFrom] at h
    cases hs : mergeStep acc p with
    | none => rw [hs] at h; exact Option.noConfusion h
    | some acc2 =>
      rw [hs] at h
      have hacc2 : WFBike acc2 = true := mergeStep_wf hacc (hp p (List.mem_cons_self p t)) hs
      have hrec := ih acc2 m hacc2 (fun q hq => hp q (List.mem_cons_of_mem p hq)) h
      have hstep : fieldVal (groupOf g acc2) i =
          fillField (fieldVal (groupOf g acc) i) (fieldVal (groupOf g p.bike_data) i) := by
        rw [mergeStep_groupOf g hs]
        exact fieldVal_merge_specs (wf_groupOf hacc g) hi
      rw [List.foldl_cons, ← hstep]
      exact hrec

theorem foldl_fillField_some {α β : Type} (f : β → Option α) (v : α) :
    ∀ (l : List β), l.foldl (fun c x => fillField c (f x)) (some v) = some v := by
  intro l
  induction l with
  | nil => rfl
  | cons x t ih => simpa [List.foldl_cons, fillField] using ih

theorem foldl_fillField_firstSetVal {α : Type} (g : SpecGroup) (i : ℕ) :
    ∀ (l : List (PageData α)),
      l.foldl (fun c p => fillField c (fieldVal (groupOf g p.bike_data) i)) none =
      firstSetVal g i l := by
  intro l
  induction l with
  | nil => rfl
  | cons x t ih =>
    cases hfx : fieldVal (groupOf g x.bike_data) i with
    | some v =>
      rw [List.foldl_cons]
      have h1 : fillField none (fieldVal (groupOf g x.bike_data) i) = some v := by
        simp [fillField, hfx]
      rw [h1, foldl_fillField_some]
      unfold firstSetVal
      rw [List.find?_cons_of_pos _ (by simp [hfx])]
      exact hfx.symm
    | none =>
      rw [List.foldl_cons]
      have h1 : fillField none (fieldVal (groupOf g x.bike_data) i) = none := by
        simp [fillField, hfx]
      rw [h1, ih]
      unfold firstSetVal
      rw [List.find?_cons_of_neg _ (by simp [hfx])]

theorem mergeFrom_append {α : Type} :
    ∀ (l1 l2 : List (PageData α)) (acc : BikeData α),
      mergeFrom acc (l1 ++ l2) =
        (match mergeFrom acc l1 with
         | none => none
         | some a => mergeFrom a l2) := by
  intro l1
  induction l1 with
  | nil => intro l2 acc; rfl
  | cons p t ih =>
    intro l2 acc
    simp only [List.cons_append, mergeFrom]
    cases hs : mergeStep acc p with
    | none => rfl
    | some a2 => exact ih l2 a2

theorem groupOf_finalize {α : Type} (g : SpecGroup) (m : BikeData α) :
    groupOf g (finalize m) = groupOf g m := by
  cases g <;> rfl

/-! ## Claim C1 -/

/-- **C1**: the merge of a group of two or more records is fill-only on
every field of each of the six spec groups: under any processing order of
the non-top-priority records, a field of the accumulator that is non-null
is never overwritten (in particular never replaced by null); and in the
merge as performed the final value of each field is the value of the
first record in priority-sorted order that sets it, which has maximal
page-type priority among all records setting that field. -/
theorem claim1_merge_fill_only {α : Type} (ps : List (PageData α))
    (h2 : 2 ≤ ps.length) (hwf : ∀ p ∈ ps, WFBike p.bike_data = true)
    (first : PageData α) (rest : List (PageData α))
    (hsort : pySortDesc ps = first :: rest)
    (g : SpecGroup) (i : ℕ) (hi : i < groupLen g) :
    (∀ (pre suf : List (PageData α)), (pre ++ suf).Perm rest →
      ∀ (acc1 m : BikeData α) (v : α),
        mergeFrom first.bike_data pre = some acc1 →
        mergeFrom first.bike_data (pre ++ suf) = some m →
        fieldVal (groupOf g acc1) i = some v →
        fieldVal (groupOf g m) i = some v) ∧
    (∀ m : BikeData α, merge_bike_data ps = some m →
      (fieldVal (groupOf g m) i = firstSetVal g i (pySortDesc ps)) ∧
      (∀ p, (pySortDesc ps).find?
            (fun p => (fieldVal (groupOf g p.bike_data) i).isSome) = some p →
        ∀ q ∈ ps, (fieldVal (groupOf g q.bike_data) i).isSome = true →
          page_type_priority q.page_type ≤ page_type_priority p.page_type)) := by
  have hmemps : ∀ p, p ∈ first :: rest → p ∈ ps := by
    intro p hp
    rw [← hsort] at hp
    exact (pySortDesc_perm ps).mem_iff.mp hp
  have hwfFirst : WFBike first.bike_data = true :=
    hwf first (hmemps first (List.mem_cons_self first rest))
  constructor
  · intro pre suf hperm acc1 m v hpre hall hv
    have hwfOrder : ∀ p ∈ pre ++ suf, WFBike p.bike_data = true := by
      intro p hp
      exact hwf p (hmemps p (List.mem_cons_of_mem first (hperm.mem_iff.mp hp)))
    rw [mergeFrom_append pre suf first.bike_data, hpre] at hall
    have hwfAcc1 : WFBike acc1 = true :=
      mergeFrom_wf pre first.bike_data acc1 hwfFirst
        (fun q hq => hwfOrder q (List.mem_append_left suf hq)) hpre
    have := mergeFrom_fieldVal g i hi suf acc1 m hwfAcc1
      (fun q hq => hwfOrder q (List.mem_append_right pre hq)) hall
    rw [this, hv]
    exact foldl_fillField_some _ v suf
  · intro m hm
    -- extract the mergeFrom equation from merge_bike_data
    obtain ⟨p1, p2, tl, rfl⟩ : ∃ p1 p2 tl, ps = p1 :: p2 :: tl := by
      cases ps with
      | nil => simp at h2
      | cons p1 t =>
        cases t with
        | nil => simp at h2
        | cons p2 tl => exact ⟨p1, p2, tl, rfl⟩
    have hm2 : (match pySortDesc (p1 :: p2 :: tl) with
        | [] => (none : Option (BikeData α))
        | first :: rest =>
          match mergeFrom first.bike_data rest with
          | none => none
          | some mm => some (finalize mm)) = some m := hm
    simp only [hsort] at hm2
    cases hmf : mergeFrom first.bike_data rest with
    | none => rw [hmf] at hm2; exact Option.noConfusion hm2
    | some mm =>
      rw [hmf] at hm2
      simp only [Option.some.injEq] at hm2
      have hwfRest : ∀ p ∈ rest, WFBike p.bike_data = true := by
        intro p hp
        exact hwf p (hmemps p (List.mem_cons_of_mem first hp))
      have hval := mergeFrom_fieldVal g i hi rest first.bike_data mm hwfFirst hwfRest hmf
      have hgm : fieldVal (groupOf g m) i = fieldVal (groupOf g mm) i := by
        rw [← hm2, groupOf_finalize]
      constructor
      · rw [hgm, hval, hsort]
        cases hfv : fieldVal (groupOf g first.bike_data) i with
        | some v =>
          have hfs : firstSetVal g i (first :: rest) = some v := by
            unfold firstSetVal
            rw [List.find?_cons_of_pos _ (by simp [hfv])]
            exact hfv
          rw [foldl_fillField_some, hfs]
        | none =>
          have hfs : firstSetVal g i (first :: rest) = firstSetVal g i rest := by
            unfold firstSetVal
            rw [List.find?_cons_of_neg _ (by simp [hfv])]
          rw [foldl_fillField_firstSetVal g i rest, hfs]
      · intro p hfind q hq hqset
        obtain ⟨pre2, suf2, hsplit, hprefail⟩ := find?_eq_some_split _ hfind
        have hqsorted : q ∈ pySortDesc (p1 :: p2 :: tl) :=
          (pySortDesc_perm _).mem_iff.mpr hq
        rw [hsplit] at hqsorted
        rcases List.mem_append.mp hqsorted with hqpre | hqps
        · exact absurd hqset (by simp [hprefail q hqpre])
        · rcases List.mem_cons.mp hqps with rfl | hqsuf
          · exact le_refl _
          · have hpw := pySortDesc_pairwise (p1 :: p2 :: tl)
            rw [hsplit] at hpw
            have hpw2 := hpw.sublist (List.sublist_append_right pre2 (p :: suf2))
            rw [List.pairwise_cons] at hpw2
            exact hpw2.1 q hqsuf

/-- Witness for C1: both components applied to the concrete two-record
group `psW1` (specs page sets `max_power_kw = 80`, main page sets `90`). -/
theorem claim1_merge_fill_only_witness :
    fieldVal (groupOf SpecGroup.engine (bdW 80)) 5 = some 80 ∧
    fieldVal (groupOf SpecGroup.engine (finalize (bdW 80))) 5 =
      firstSetVal SpecGroup.engine 5 (pySortDesc psW1) :=
  ⟨(claim1_merge_fill_only psW1 (by decide) (by decide) ⟨bdW 80, "specs"⟩
      [⟨bdW 90, "main"⟩] rfl SpecGroup.engine 5 (by decide)).1
      [] [⟨bdW 90, "main"⟩] (List.Perm.refl _) (bdW 80) (bdW 80) 80 rfl
      (by decide) (by decide),
   ((claim1_merge_fill_only psW1 (by decide) (by decide) ⟨bdW 80, "specs"⟩
      [⟨bdW 90, "main"⟩] rfl SpecGroup.engine 5 (by decide)).2
      (finalize (bdW 80)) (by decide)).1⟩

/-! ## Claim C9 -/

/-- **C9**: merging a group containing exactly one record returns that
record unchanged (identity law). -/
theorem claim9_singleton_identity {α : Type} (p : PageData α) :
    merge_bike_data [p] = some p.bike_data := rfl

/-! ## Claim C2 -/

/-- **C2**: for a group of three records with page types
`[specs, main, gallery]` in which the specs record and the main record
both set `max_power_kw` to different non-null values, the merged record's
`max_power_kw` equals the specs record's value. -/
theorem claim2_specs_beats_main {α : Type} (r1 r2 r3 : BikeData α) (a b : α)
    (ha : fieldVal r1.engine max_power_kw_idx = some a)
    (hb : fieldVal r2.engine max_power_kw_idx = some b)
    (hab : a ≠ b) (m : BikeData α)
    (hm : merge_bike_data [⟨r1, "specs"⟩, ⟨r2, "main"⟩, ⟨r3, "gallery"⟩] = some m) :
    fieldVal m.engine max_power_kw_idx = some a := by
  have hsort : pySortDesc [(⟨r1, "specs"⟩ : PageData α), ⟨r2, "main"⟩, ⟨r3, "gallery"⟩] =
      [⟨r1, "specs"⟩, ⟨r2, "main"⟩, ⟨r3, "gallery"⟩] := rfl
  unfold merge_bike_data at hm
  rw [hsort] at hm
  simp only [mergeFrom] at hm
  cases hs1 : mergeStep r1 (⟨r2, "main"⟩ : PageData α) with
  | none => simp only [hs1] at hm; exact Option.noConfusion hm
  | some acc1 =>
    simp only [hs1] at hm
    cases hs2 : mergeStep acc1 (⟨r3, "gallery"⟩ : PageData α) with
    | none => simp only [hs2] at hm; exact Option.noConfusion hm
    | some acc2 =>
      simp only [hs2, Option.some.injEq] at hm
      subst hm
      have e1 : acc1.engine = merge_specs r1.engine r2.engine :=
        mergeStep_groupOf SpecGroup.engine hs1
      have e2 : acc2.engine = merge_specs acc1.engine r3.engine :=
        mergeStep_groupOf SpecGroup.engine hs2
      have hf1 : fieldVal acc1.engine max_power_kw_idx = some a := by
        rw [e1]; exact fieldVal_merge_keep ha
      have hf2 : fieldVal acc2.engine max_power_kw_idx = some a := by
        rw [e2]; exact fieldVal_merge_keep hf1
      simpa [finalize] using hf2

/-- Witness for C2: the concrete three-record group `psW2` with
`max_power_kw` 80 on the specs page and 90 on the main page merges to 80. -/
theorem claim2_specs_beats_main_witness :
    fieldVal (finalize (bdW 80)).engine max_power_kw_idx = some 80 :=
  claim2_specs_beats_main (bdW 80) (bdW 90) (bdW 70) 80 90 (by decide) (by decide)
    (by decide) (finalize (bdW 80)) (by decide)

/-! ## Helper lemmas for the image downloader -/

theorem download_image_inv (hashFn : List ℕ → String) (st : DLState) (c : DLCall)
    (h1 : ∀ f ∈ st.files, hashFn f.2 ∈ st.image_hashes)
    (h2 : st.files.Pairwise (fun f1 f2 => hashFn f1.2 ≠ hashFn f2.2)) :
    (∀ f ∈ (download_image hashFn st c).1.files,
      hashFn f.2 ∈ (download_image hashFn st c).1.image_hashes) ∧
    (download_image hashFn st c).1.files.Pairwise
      (fun f1 f2 => hashFn f1.2 ≠ hashFn f2.2) := by
  cases hr : c.response with
  | none =>
    simp only [download_image, hr]
    exact ⟨h1, h2⟩
  | some sd =>
    obtain ⟨status, data⟩ := sd
    simp only [download_image, hr]
    by_cases hs : status ≠ 200
    · rw [if_pos hs]
      exact ⟨h1, h2⟩
    · rw [if_neg hs]
      by_cases hmem : hashFn data ∈ st.image_hashes
      · rw [if_pos hmem]
        exact ⟨h1, h2⟩
      · rw [if_neg hmem]
        constructor
        · intro f hf
          rcases List.mem_append.mp hf with hold | hnew
          · exact List.mem_cons_of_mem _ (h1 f hold)
          · rcases List.mem_cons.mp hnew with rfl | habs
            · exact List.mem_cons_self _ _
            · exact absurd habs (List.not_mem_nil f)
        · rw [List.pairwise_append]
          refine ⟨h2, List.pairwise_singleton _ _, ?_⟩
          intro a ha b hb
          rcases List.mem_cons.mp hb with rfl | habs
          · intro heq
            exact hmem (heq ▸ h1 a ha)
          · exact absurd habs (List.not_mem_nil b)

theorem runDownloads_inv (hashFn : List ℕ → String) :
    ∀ (calls : List DLCall) (st : DLState),
      (∀ f ∈ st.files, hashFn f.2 ∈ st.image_hashes) →
      st.files.Pairwise (fun f1 f2 => hashFn f1.2 ≠ hashFn f2.2) →
      (∀ f ∈ (runDownloads hashFn calls st).1.files,
        hashFn f.2 ∈ (runDownloads hashFn calls st).1.image_hashes) ∧
      (runDownloads hashFn calls st).1.files.Pairwise
        (fun f1 f2 => hashFn f1.2 ≠ hashFn f2.2) := by
  intro calls
  induction calls with
  | nil => intro st h1 h2; exact ⟨h1, h2⟩
  | cons c t ih =>
    intro st h1 h2
    have hstep := download_image_inv hashFn st c h1 h2
    exact ih (download_image hashFn st c).1 hstep.1 hstep.2

/-! ## Claim C3 -/

/-- **C3**: within one downloader run, no two written files carry bytes
with the same content hash, and a `download_image` call whose fetched
bytes hash to a value already in the run's hash set writes no file and
returns no path (the state, including the file log, is unchanged). -/
theorem claim3_image_dedup (hashFn : List ℕ → String) (calls : List DLCall) :
    ((runDownloads hashFn calls initDL).1.files.Pairwise
      (fun f1 f2 => hashFn f1.2 ≠ hashFn f2.2)) ∧
    (∀ (pre : List DLCall) (c : DLCall) (suf : List DLCall),
      calls = pre ++ c :: suf →
      ∀ (status : ℕ) (data : List ℕ), c.response = some (status, data) →
      hashFn data ∈ (runDownloads hashFn pre initDL).1.image_hashes →
      download_image hashFn (runDownloads hashFn pre initDL).1 c =
        ((runDownloads hashFn pre initDL).1, none)) := by
  constructor
  · refine (runDownloads_inv hashFn calls initDL ?_ List.Pairwise.nil).2
    intro f hf
    exact absurd hf (List.not_mem_nil f)
  · intro pre c suf _ status data hresp hmem
    simp only [download_image, hresp]
    by_cases hs : status ≠ 200
    · rw [if_pos hs]
    · rw [if_neg hs, if_pos hmem]

/-- Witness for C3: with a constant hash function, the second of two
successful downloads hits the hash set and leaves the state unchanged. -/
theorem claim3_image_dedup_witness :
    download_image hFnW (runDownloads hFnW [cW1] initDL).1 cW2 =
      ((runDownloads hFnW [cW1] initDL).1, none) :=
  (claim3_image_dedup hFnW [cW1, cW2]).2 [cW1] cW2 [] rfl 200 [2] rfl (by decide)

/-! ## Claim C4 -/

/-- Counterexample for **C4** as stated: with every navigation attempt
blocked but the sitemap strategy able to produce an accessible page, the
run still raises the fatal condition — so the fatal is not raised "only
when every discovery strategy fails to produce a single accessible
page". -/
theorem claim4_counterexample :
    discover_all_pages "https://www.ducati.com" envDenied [] =
      .error "Could not access website - all URLs blocked" ∧
    envDenied.sitemap ≠ [] :=
  ⟨rfl, by decide⟩

/-- **C4 (amended)**: the fatal "site inaccessible" error is raised
exactly when all four initial navigation attempts fail — before any
strategy runs and regardless of what the strategies could contribute; in
particular a strategy that cannot access the site (contributing nothing)
never aborts a run whose initial navigation succeeded. -/
theorem claim4_fatal_iff_nav (base : String) (env : DiscoveryEnv) (visited : List String) :
    ((∃ e, discover_all_pages base env visited = .error e) ↔
      (urls_to_try base).any env.navOk = false) ∧
    (∀ env2 : DiscoveryEnv, env2.navOk = env.navOk →
      ((∃ e, discover_all_pages base env2 visited = .error e) ↔
        (∃ e, discover_all_pages base env visited = .error e))) := by
  constructor
  · unfold discover_all_pages
    by_cases h : (urls_to_try base).any env.navOk
    · rw [if_pos h]
      constructor
      · intro ⟨e, he⟩
        exact absurd he (by simp)
      · intro hfalse
        rw [h] at hfalse
        exact absurd hfalse (by simp)
    · rw [if_neg h]
      constructor
      · intro _
        simpa using h
      · intro _
        exact ⟨_, rfl⟩
  · intro env2 hnav
    unfold discover_all_pages
    rw [hnav]
    by_cases h : (urls_to_try base).any env.navOk
    · rw [if_pos h, if_pos h]
      simp
    · rw [if_neg h, if_neg h]

/-- Witness for C4: applied to two concrete environments sharing the same
blocked navigation, one with a non-trivial sitemap strategy and one with
none — the fatal outcome is the same. -/
theorem claim4_fatal_iff_nav_witness :
    (∃ e, discover_all_pages "https://www.ducati.com" envNoStrategies [] = .error e) ↔
    (∃ e, discover_all_pages "https://www.ducati.com" envDenied [] = .error e) :=
  (claim4_fatal_iff_nav "https://www.ducati.com" envDenied []).2 envNoStrategies rfl

/-! ## Helper lemmas for the heap model of the merge -/

theorem ptrGE_mono {N M : ℕ} {p : Option ℕ} (h : N ≤ M) (hp : ptrGE M p) : ptrGE N p := by
  obtain ⟨x, hx, hMx⟩ := hp
  exact ⟨x, hx, le_trans h hMx⟩

theorem merge_specs_heap_fst_some {α : Type} (s : Store α) (x : ℕ) (p2 : Option ℕ) :
    (merge_specs_heap s (some x) p2).1 = some x := by
  cases p2 <;> rfl

theorem merge_specs_heap_preserve {α : Type} {N : ℕ} (s : Store α) {x : ℕ} (p2 : Option ℕ)
    (hx : N ≤ x) (a : ℕ) (ha : a < N) :
    (merge_specs_heap s (some x) p2).2.getD a [] = s.getD a [] := by
  cases p2 with
  | none => rfl
  | some a2 =>
    show (s.set x _).getD a [] = s.getD a []
    have hne : x ≠ a := by omega
    simp [List.getD_eq_getElem?_getD, List.getElem?_set_ne hne]

theorem allocCopy_facts {α : Type} (s : Store α) (p : Option ℕ) :
    s.length ≤ (allocCopy s p).2.length ∧
    (∀ a, a < s.length → (allocCopy s p).2.getD a [] = s.getD a []) ∧
    (p.isSome = true → ptrGE s.length (allocCopy s p).1) := by
  cases p with
  | none =>
    refine ⟨le_refl _, fun a _ => rfl, fun h => ?_⟩
    simp at h
  | some x =>
    refine ⟨?_, ?_, fun _ => ⟨s.length, rfl, le_refl _⟩⟩
    · simp [allocCopy]
    · intro a ha
      show (s ++ [_]).getD a [] = s.getD a []
      simp [List.getD_eq_getElem?_getD, List.getElem?_append_left ha]

theorem mergeStepHeap_preserve {α : Type} {N : ℕ} (s : Store α) (acc : BikeRef) (p : PageRef)
    (hacc : ∀ g, ptrGE N (refGroup g acc)) :
    (∀ a, a < N → (mergeStepHeap s acc p).2.getD a [] = s.getD a []) ∧
    (∀ acc2, (mergeStepHeap s acc p).1 = some acc2 → ∀ g, ptrGE N (refGroup g acc2)) := by
  obtain ⟨xe, hxe, hxeN⟩ := hacc .engine
  obtain ⟨xt, hxt, hxtN⟩ := hacc .transmission
  obtain ⟨xc, hxc, hxcN⟩ := hacc .chassis
  obtain ⟨xd, hxd, hxdN⟩ := hacc .dimensions
  obtain ⟨xp, hxp, hxpN⟩ := hacc .performance
  obtain ⟨xl, hxl, hxlN⟩ := hacc .electrical
  simp only [refGroup] at hxe hxt hxc hxd hxp hxl
  simp only [mergeStepHeap, hxe, hxt, hxc, hxd, hxp, hxl, merge_specs_heap_fst_some]
  constructor
  · intro a ha
    rw [merge_specs_heap_preserve _ _ hxlN a ha, merge_specs_heap_preserve _ _ hxpN a ha,
      merge_specs_heap_preserve _ _ hxdN a ha, merge_specs_heap_preserve _ _ hxcN a ha,
      merge_specs_heap_preserve _ _ hxtN a ha, merge_specs_heap_preserve _ _ hxeN a ha]
  · intro acc2 h
    cases hd : pyDescMerge acc.description p.bike_data.description with
    | none =>
      rw [hd] at h
      exact absurd h (by simp)
    | some d =>
      rw [hd] at h
      have := Option.some.inj h
      subst this
      intro g
      cases g
      · exact ⟨xe, rfl, hxeN⟩
      · exact ⟨xt, rfl, hxtN⟩
      · exact ⟨xc, rfl, hxcN⟩
      · exact ⟨xd, rfl, hxdN⟩
      · exact ⟨xp, rfl, hxpN⟩
      · exact ⟨xl, rfl, hxlN⟩

theorem mergeFromHeap_preserve {α : Type} {N : ℕ} :
    ∀ (pages : List PageRef) (s : Store α) (acc : BikeRef),
      (∀ g, ptrGE N (refGroup g acc)) →
      ∀ a, a < N → (mergeFromHeap s acc pages).2.getD a [] = s.getD a [] := by
  intro pages
  induction pages with
  | nil => intro s acc _ a _; rfl
  | cons p t ih =>
    intro s acc hacc a ha
    have hstep := mergeStepHeap_preserve s acc p hacc
    cases hms : mergeStepHeap s acc p with
    | mk o s2 =>
      cases o with
      | none =>
        simp only [mergeFromHeap, hms]
        have hpres := hstep.1 a ha
        rw [hms] at hpres
        exact hpres
      | some acc2 =>
        simp only [mergeFromHeap, hms]
        have h2 := hstep.2 acc2 (by rw [hms])
        have hpres := hstep.1 a ha
        rw [hms] at hpres
        rw [ih s2 acc2 h2 a ha]
        exact hpres

theorem deepCopyRef_all_some {α : Type} (store : Store α) (b : BikeRef)
    (he : b.engine.isSome = true) (ht : b.transmission.isSome = true)
    (hc : b.chassis.isSome = true) (hd : b.dimensions.isSome = true)
    (hp : b.performance.isSome = true) (hl : b.electrical.isSome = true) :
    (∀ g, ptrGE store.length (refGroup g (deepCopyRef store b).1)) ∧
    (∀ a, a < store.length → (deepCopyRef store b).2.getD a [] = store.getD a []) := by
  have f1 := allocCopy_facts store b.engine
  have f2 := allocCopy_facts (allocCopy store b.engine).2 b.transmission
  have f3 := allocCopy_facts (allocCopy (allocCopy store b.engine).2 b.transmission).2 b.chassis
  have f4 := allocCopy_facts (allocCopy (allocCopy (allocCopy store b.engine).2
    b.transmission).2 b.chassis).2 b.dimensions
  have f5 := allocCopy_facts (allocCopy (allocCopy (allocCopy (allocCopy store b.engine).2
    b.transmission).2 b.chassis).2 b.dimensions).2 b.performance
  have f6 := allocCopy_facts (allocCopy (allocCopy (allocCopy (allocCopy (allocCopy store
    b.engine).2 b.transmission).2 b.chassis).2 b.dimensions).2 b.performance).2 b.electrical
  have l1 := f1.1
  have l2 := f2.1
  have l3 := f3.1
  have l4 := f4.1
  have l5 := f5.1
  have l6 := f6.1
  constructor
  · intro g
    cases g
    · exact f1.2.2 he
    · exact ptrGE_mono l1 (f2.2.2 ht)
    · exact ptrGE_mono (le_trans l1 l2) (f3.2.2 hc)
    · exact ptrGE_mono (le_trans l1 (le_trans l2 l3)) (f4.2.2 hd)
    · exact ptrGE_mono (le_trans l1 (le_trans l2 (le_trans l3 l4))) (f5.2.2 hp)
    · exact ptrGE_mono (le_trans l1 (le_trans l2 (le_trans l3 (le_trans l4 l5)))) (f6.2.2 hl)
  · intro a ha
    show (allocCopy _ b.electrical).2.getD a [] = store.getD a []
    rw [f6.2.1 a (lt_of_lt_of_le ha (le_trans l1 (le_trans l2 (le_trans l3 (le_trans l4 l5))))),
      f5.2.1 a (lt_of_lt_of_le ha (le_trans l1 (le_trans l2 (le_trans l3 l4)))),
      f4.2.1 a (lt_of_lt_of_le ha (le_trans l1 (le_trans l2 l3))),
      f3.2.1 a (lt_of_lt_of_le ha (le_trans l1 l2)),
      f2.2.1 a (lt_of_lt_of_le ha l1),
      f1.2.1 a ha]

/-! ## Claim C10 -/

/-- Counterexample for **C10** as stated: in a three-record group whose
top-priority record has `specifications.engine = None`, `_merge_specs`
aliases the second record's engine object into the accumulator, and the
third record's values are filled into that *input* object: after the
merge, the second record's engine object (store address 0) has its first
field set to 7, while it was unset in the input store. -/
theorem claim10_counterexample :
    ((merge_bike_data_heap storeC psHC).2.getD 0 []).getD 0 none = some 7 ∧
    (storeC.getD 0 []).getD 0 none = none := by
  decide

/-- **C10 (amended)**: provided every one of the six spec groups of the
highest-priority record is present (non-`None`), `merge_bike_data`
leaves every input spec object unmodified: the deep copy allocates fresh
objects, all in-place fills target only those, so every pre-existing
store cell is unchanged — even if the merge raises midway.  (When a
group of the accumulator is `None`, the aliasing of the counterexample
can mutate an input record.)  The only remaining caller-visible mutation
is the in-place reordering of `pages_data` by the sort. -/
theorem claim10_frame (α : Type) (store : Store α) (ps : List PageRef)
    (h2 : 2 ≤ ps.length) (first : PageRef) (rest : List PageRef)
    (hsort : pySortDescR ps = first :: rest)
    (he : first.bike_data.engine.isSome = true)
    (ht : first.bike_data.transmission.isSome = true)
    (hc : first.bike_data.chassis.isSome = true)
    (hd : first.bike_data.dimensions.isSome = true)
    (hp : first.bike_data.performance.isSome = true)
    (hl : first.bike_data.electrical.isSome = true) :
    ∀ a, a < store.length →
      (merge_bike_data_heap store ps).2.getD a [] = store.getD a [] := by
  intro a ha
  obtain ⟨p1, p2, tl, rfl⟩ : ∃ p1 p2 tl, ps = p1 :: p2 :: tl := by
    cases ps with
    | nil => simp at h2
    | cons p1 t =>
      cases t with
      | nil => simp at h2
      | cons p2 tl => exact ⟨p1, p2, tl, rfl⟩
  have hm2 : merge_bike_data_heap store (p1 :: p2 :: tl) =
      (match pySortDescR (p1 :: p2 :: tl) with
       | [] => ((none : Option BikeRef), store)
       | f :: rs => mergeFromHeap (deepCopyRef store f.bike_data).2
           (deepCopyRef store f.bike_data).1 rs) := rfl
  rw [hm2]
  simp only [hsort]
  have hds := deepCopyRef_all_some store first.bike_data he ht hc hd hp hl
  rw [mergeFromHeap_preserve rest _ _ hds.1 a ha]
  exact hds.2 a ha

/-- Witness for C10 (amended): two records with all six groups present
(addresses 0–5 and 6–11); the second record's engine object at address 6
is untouched by the merge. -/
theorem claim10_frame_witness :
    (merge_bike_data_heap storeW psHW).2.getD 6 [] = storeW.getD 6 [] :=
  claim10_frame ℕ storeW psHW (by decide) ⟨mkRefW 0, "specs"⟩ [⟨mkRefW 6, "main"⟩] rfl
    (by decide) (by decide) (by decide) (by decide) (by decide) (by decide) 6 (by decide)


/-! ## Character-level lemmas for the URL model -/

theorem char_eq_of_toNat_eq {a b : Char} (h : a.toNat = b.toNat) : a = b :=
  Char.eq_of_val_eq (UInt32.eq_of_toBitVec_eq (by
    simp [Char.toNat, UInt32.toNat] at h
    exact BitVec.eq_of_toNat_eq h))

theorem char_eq_iff_toNat {a b : Char} : a = b ↔ a.toNat = b.toNat :=
  ⟨fun h => by rw [h], char_eq_of_toNat_eq⟩

theorem char_le_iff_toNat {a b : Char} : a ≤ b ↔ a.toNat ≤ b.toNat := by
  rw [Char.le_def]; exact ⟨fun h => h, fun h => h⟩

theorem toNat_ofNat_valid (n : ℕ) (h : n.isValidChar) : (Char.ofNat n).toNat = n := by
  simp [Char.ofNat, h, Char.ofNatAux, Char.toNat]
  simp [UInt32.toNat, BitVec.toNat_ofNat]

/-- `Char.toLower` either fixes a character or shifts an ASCII capital by 32. -/
theorem toLower_cases (c : Char) :
    Char.toLower c = c ∨
      (65 ≤ c.toNat ∧ c.toNat ≤ 90 ∧ (Char.toLower c).toNat = c.toNat + 32) := by
  by_cases h : 65 ≤ c.toNat ∧ c.toNat ≤ 90
  · refine Or.inr ⟨h.1, h.2, ?_⟩
    have hv : (c.toNat + 32).isValidChar := Or.inl (by omega)
    have key : Char.toLower c = Char.ofNat (c.toNat + 32) := by
      simp only [Char.toLower]
      rw [if_pos h]
    rw [key, toNat_ofNat_valid _ hv]
  · left
    simp only [Char.toLower]
    rw [if_neg h]

theorem toLower_toLower (c : Char) :
    Char.toLower (Char.toLower c) = Char.toLower c := by
  rcases toLower_cases c with h | ⟨h1, h2, h3⟩
  · rw [h, h]
  · rcases toLower_cases (Char.toLower c) with h | ⟨g1, g2, _⟩
    · exact h
    · omega

/-- A character whose code is below 97 is not the lower-casing of any other
character. -/
theorem toLower_eq_low {c d : Char} (hd : d.toNat < 97)
    (h : Char.toLower c = d) : c = d := by
  rcases toLower_cases c with h0 | ⟨h1, h2, h3⟩
  · rw [← h0, h]
  · rw [h] at h3; omega

theorem toLower_fixed {c : Char} (h : ¬ (65 ≤ c.toNat ∧ c.toNat ≤ 90)) :
    Char.toLower c = c := by
  rcases toLower_cases c with h0 | ⟨h1, h2, _⟩
  · exact h0
  · exact absurd ⟨h1, h2⟩ h

theorem isAsciiAlpha_iff (c : Char) :
    isAsciiAlpha c = true ↔
      (97 ≤ c.toNat ∧ c.toNat ≤ 122) ∨ (65 ≤ c.toNat ∧ c.toNat ≤ 90) := by
  have ha : ('a' : Char).toNat = 97 := rfl
  have hz : ('z' : Char).toNat = 122 := rfl
  have hA : ('A' : Char).toNat = 65 := rfl
  have hZ : ('Z' : Char).toNat = 90 := rfl
  simp only [isAsciiAlpha, decide_eq_true_eq, char_le_iff_toNat, ha, hz, hA, hZ]

theorem isDigit_iff (c : Char) :
    c.isDigit = true ↔ 48 ≤ c.toNat ∧ c.toNat ≤ 57 := by
  simp only [Char.isDigit, Bool.and_eq_true, decide_eq_true_eq]
  exact ⟨fun h => ⟨h.1, h.2⟩, fun h => ⟨h.1, h.2⟩⟩

theorem isSchemeChar_iff (c : Char) :
    isSchemeChar c = true ↔
      ((97 ≤ c.toNat ∧ c.toNat ≤ 122) ∨ (65 ≤ c.toNat ∧ c.toNat ≤ 90)) ∨
        (48 ≤ c.toNat ∧ c.toNat ≤ 57) ∨
        c.toNat = 43 ∨ c.toNat = 45 ∨ c.toNat = 46 := by
  have hp : ('+' : Char).toNat = 43 := rfl
  have hm : ('-' : Char).toNat = 45 := rfl
  have hd : ('.' : Char).toNat = 46 := rfl
  simp only [isSchemeChar, decide_eq_true_eq, isAsciiAlpha_iff, isDigit_iff,
    char_eq_iff_toNat, hp, hm, hd]

theorem isNetlocDelim_iff (c : Char) :
    isNetlocDelim c = true ↔ c.toNat = 47 ∨ c.toNat = 63 ∨ c.toNat = 35 := by
  have hs : ('/' : Char).toNat = 47 := rfl
  have hq : ('?' : Char).toNat = 63 := rfl
  have hh : ('#' : Char).toNat = 35 := rfl
  simp only [isNetlocDelim, decide_eq_true_eq, char_eq_iff_toNat, hs, hq, hh]

theorem isAsciiAlpha_toLower (c : Char) :
    isAsciiAlpha (Char.toLower c) = isAsciiAlpha c := by
  rw [Bool.eq_iff_iff, isAsciiAlpha_iff, isAsciiAlpha_iff]
  rcases toLower_cases c with h | ⟨h1, h2, h3⟩
  · rw [h]
  · omega

theorem isSchemeChar_toLower (c : Char) :
    isSchemeChar (Char.toLower c) = isSchemeChar c := by
  rw [Bool.eq_iff_iff, isSchemeChar_iff, isSchemeChar_iff]
  rcases toLower_cases c with h | ⟨h1, h2, h3⟩
  · rw [h]
  · omega

theorem isNetlocDelim_toLower (c : Char) :
    isNetlocDelim (Char.toLower c) = isNetlocDelim c := by
  rw [Bool.eq_iff_iff, isNetlocDelim_iff, isNetlocDelim_iff]
  rcases toLower_cases c with h | ⟨h1, h2, h3⟩
  · rw [h]
  · omega

/-- Equality tests against a character that lower-casing cannot produce or
change commute with `Char.toLower`. -/
theorem decide_toLower_eq {s : Char} (hs : Char.toLower s = s) (hlow : s.toNat < 97)
    (c : Char) : decide (Char.toLower c = s) = decide (c = s) := by
  rw [Bool.eq_iff_iff, decide_eq_true_eq, decide_eq_true_eq]
  exact ⟨fun h => toLower_eq_low hlow h, fun h => by rw [h, hs]⟩

theorem mem_pyLower_fix {s : Char} (hs : Char.toLower s = s) (hlow : s.toNat < 97)
    (l : List Char) : s ∈ pyLower l ↔ s ∈ l := by
  unfold pyLower
  constructor
  · intro h
    rcases List.mem_map.mp h with ⟨d, hd, hds⟩
    rwa [toLower_eq_low hlow hds] at hd
  · intro h
    rcases List.mem_map.mpr ⟨s, h, hs⟩ with h2
    exact h2

theorem pyLower_pyLower (l : List Char) : pyLower (pyLower l) = pyLower l := by
  unfold pyLower
  rw [List.map_map]
  exact List.map_congr_left (fun c _ => toLower_toLower c)

theorem headAlpha_pyLower (l : List Char) : headAlpha (pyLower l) = headAlpha l := by
  cases l with
  | nil => rfl
  | cons c t => exact isAsciiAlpha_toLower c

theorem all_isSchemeChar_pyLower (l : List Char) :
    (pyLower l).all isSchemeChar = l.all isSchemeChar := by
  unfold pyLower
  rw [List.all_map]
  have h : isSchemeChar ∘ Char.toLower = isSchemeChar := funext isSchemeChar_toLower
  rw [h]

/-! ## `splitFirst` lemmas -/

theorem splitFirst_no_match {p : Char → Bool} {l : List Char}
    (h : ∀ c ∈ l, p c = false) : splitFirst p l = (l, none) := by
  induction l with
  | nil => rfl
  | cons c t ih =>
    rw [splitFirst, if_neg (by simp [h c (List.mem_cons_self c t)])]
    rw [ih (fun x hx => h x (List.mem_cons_of_mem c hx))]

theorem splitFirst_delim {p : Char → Bool} {l1 : List Char}
    (h : ∀ c ∈ l1, p c = false) {d : Char} (hd : p d = true) (l2 : List Char) :
    splitFirst p (l1 ++ d :: l2) = (l1, some l2) := by
  induction l1 with
  | nil => simp [splitFirst, hd]
  | cons c t ih =>
    rw [List.cons_append, splitFirst, if_neg (by simp [h c (List.mem_cons_self c t)])]
    rw [ih (fun x hx => h x (List.mem_cons_of_mem c hx))]

theorem splitFirst_before_not {p : Char → Bool} {l : List Char} :
    ∀ c ∈ (splitFirst p l).1, p c = false := by
  induction l with
  | nil => intro c hc; simp [splitFirst] at hc
  | cons a t ih =>
    intro c hc
    by_cases ha : p a = true
    · simp [splitFirst, ha] at hc
    · rw [splitFirst, if_neg (by simp [ha])] at hc
      rcases List.mem_cons.mp hc with rfl | hc
      · simpa using ha
      · exact ih c hc

theorem splitFirst_none {p : Char → Bool} {l : List Char}
    (h : (splitFirst p l).2 = none) :
    (splitFirst p l).1 = l ∧ ∀ c ∈ l, p c = false := by
  induction l with
  | nil => exact ⟨rfl, by simp⟩
  | cons a t ih =>
    by_cases ha : p a = true
    · simp [splitFirst, ha] at h
    · rw [splitFirst, if_neg (by simp [ha])] at h ⊢
      rcases ih h with ⟨h1, h2⟩
      refine ⟨by rw [h1], ?_⟩
      intro c hc
      rcases List.mem_cons.mp hc with rfl | hc
      · simpa using ha
      · exact h2 c hc

theorem splitFirst_some {p : Char → Bool} {l b : List Char}
    (h : (splitFirst p l).2 = some b) :
    ∃ d, p d = true ∧ l = (splitFirst p l).1 ++ d :: b := by
  induction l with
  | nil => simp [splitFirst] at h
  | cons a t ih =>
    by_cases ha : p a = true
    · rw [splitFirst, if_pos ha] at h ⊢
      have hb : t = b := by simpa using h
      exact ⟨a, ha, by simp [hb]⟩
    · rw [splitFirst, if_neg (by simp [ha])] at h ⊢
      rcases ih h with ⟨d, hd, hl⟩
      exact ⟨d, hd, by rw [List.cons_append, ← hl]⟩

/-- `splitFirst` commutes with mapping a function under which the predicate
is invariant. -/
theorem splitFirst_map {p : Char → Bool} {f : Char → Char}
    (hp : ∀ c, p (f c) = p c) (l : List Char) :
    splitFirst p (l.map f) =
      ((splitFirst p l).1.map f, ((splitFirst p l).2).map (List.map f)) := by
  induction l with
  | nil => rfl
  | cons a t ih =>
    by_cases ha : p a = true
    · simp [splitFirst, hp a, ha]
    · rw [List.map_cons, splitFirst, splitFirst,
        if_neg (by simp [hp a, ha]), if_neg (by simp [ha])]
      simp [ih]

/-! ## Lower-casing commutes with the URL parse -/

theorem pyLower_nil_iff {l : List Char} : pyLower l = [] ↔ l = [] := by
  simp [pyLower]

theorem pyLower_length (l : List Char) : (pyLower l).length = l.length := by
  simp [pyLower]

theorem pyLower_append (l1 l2 : List Char) :
    pyLower (l1 ++ l2) = pyLower l1 ++ pyLower l2 :=
  List.map_append _ _ _

theorem pyLower_reverse (l : List Char) :
    pyLower l.reverse = (pyLower l).reverse :=
  List.map_reverse _ _

theorem splitFirst_pyLower {p : Char → Bool}
    (hp : ∀ c, p (Char.toLower c) = p c) (l : List Char) :
    splitFirst p (pyLower l) =
      (pyLower (splitFirst p l).1, ((splitFirst p l).2).map pyLower) := by
  unfold pyLower
  exact splitFirst_map hp l

theorem takeWhile_pyLower {p : Char → Bool}
    (hp : ∀ c, p (Char.toLower c) = p c) (l : List Char) :
    (pyLower l).takeWhile p = pyLower (l.takeWhile p) := by
  unfold pyLower
  rw [List.takeWhile_map]
  have h : p ∘ Char.toLower = p := funext hp
  rw [h]

theorem dropWhile_pyLower {p : Char → Bool}
    (hp : ∀ c, p (Char.toLower c) = p c) (l : List Char) :
    (pyLower l).dropWhile p = pyLower (l.dropWhile p) := by
  unfold pyLower
  rw [List.dropWhile_map]
  have h : p ∘ Char.toLower = p := funext hp
  rw [h]

theorem take_pyLower (n : ℕ) (l : List Char) :
    (pyLower l).take n = pyLower (l.take n) :=
  (List.map_take _ _ _).symm

theorem drop_pyLower (n : ℕ) (l : List Char) :
    (pyLower l).drop n = pyLower (l.drop n) :=
  (List.map_drop _ _ _).symm

theorem pyLower_take2_slash (l : List Char) :
    ((pyLower l).take 2 = ['/', '/']) ↔ (l.take 2 = ['/', '/']) := by
  rw [take_pyLower]
  match l with
  | [] => simp [pyLower]
  | [a] => simp [pyLower]
  | a :: b :: t =>
    show pyLower [a, b] = ['/', '/'] ↔ [a, b] = ['/', '/']
    constructor
    · intro h
      have h2 : Char.toLower a :: Char.toLower b :: ([] : List Char) =
          '/' :: '/' :: [] := h
      injection h2 with ha hrest
      injection hrest with hb
      rw [toLower_eq_low (by decide) ha, toLower_eq_low (by decide) hb]
    · intro h
      have h2 : a :: b :: ([] : List Char) = '/' :: '/' :: [] := h
      injection h2 with ha hrest
      injection hrest with hb
      rw [show pyLower [a, b] = [Char.toLower a, Char.toLower b] from rfl, ha, hb]
      rfl

/-- The predicate tests used by the URL parser are invariant under
`Char.toLower`. -/
theorem colon_test_toLower (c : Char) :
    (decide (Char.toLower c = ':')) = (decide (c = ':')) :=
  decide_toLower_eq (by decide) (by decide) c

theorem hash_test_toLower (c : Char) :
    (decide (Char.toLower c = '#')) = (decide (c = '#')) :=
  decide_toLower_eq (by decide) (by decide) c

theorem quest_test_toLower (c : Char) :
    (decide (Char.toLower c = '?')) = (decide (c = '?')) :=
  decide_toLower_eq (by decide) (by decide) c

theorem semi_test_toLower (c : Char) :
    (decide (Char.toLower c = ';')) = (decide (c = ';')) :=
  decide_toLower_eq (by decide) (by decide) c

theorem slash_test_toLower (c : Char) :
    (decide (Char.toLower c = '/')) = (decide (c = '/')) :=
  decide_toLower_eq (by decide) (by decide) c

theorem not_slash_test_toLower (c : Char) :
    (decide ¬ (Char.toLower c = '/')) = (decide ¬ (c = '/')) := by
  rcases toLower_cases c with h | ⟨h1, h2, h3⟩
  · rw [h]
  · have h5 : ('/' : Char).toNat = 47 := rfl
    have hc : ¬ c = '/' := by
      intro h
      rw [h, h5] at h1
      omega
    have hc2 : ¬ Char.toLower c = '/' := by
      intro h
      have h4 := congrArg Char.toNat h
      rw [h3, h5] at h4
      omega
    simp [hc, hc2]

theorem not_delim_test_toLower (c : Char) :
    (decide ¬ (isNetlocDelim (Char.toLower c) = true)) =
      (decide ¬ (isNetlocDelim c = true)) := by
  rw [isNetlocDelim_toLower]

/-! ## The parse pipeline commutes with lower-casing -/

theorem mem_lb_fix (l : List Char) : '[' ∈ pyLower l ↔ '[' ∈ l :=
  mem_pyLower_fix (by decide) (by decide) l

theorem mem_rb_fix (l : List Char) : ']' ∈ pyLower l ↔ ']' ∈ l :=
  mem_pyLower_fix (by decide) (by decide) l

theorem mem_semi_fix (l : List Char) : ';' ∈ pyLower l ↔ ';' ∈ l :=
  mem_pyLower_fix (by decide) (by decide) l

theorem mem_slash_fix (l : List Char) : '/' ∈ pyLower l ↔ '/' ∈ l :=
  mem_pyLower_fix (by decide) (by decide) l

theorem pyLower_cons (c : Char) (l : List Char) :
    pyLower (c :: l) = Char.toLower c :: pyLower l := rfl

theorem schemeSplit_pyLower (cs : List Char) :
    schemeSplit (pyLower cs) =
      (pyLower (schemeSplit cs).1, pyLower (schemeSplit cs).2) := by
  unfold schemeSplit
  rw [splitFirst_pyLower colon_test_toLower]
  cases hsp : (splitFirst (fun c => c = ':') cs).2 with
  | none =>
    simp only [hsp, Option.map_none']
    rfl
  | some after =>
    simp only [hsp, Option.map_some']
    by_cases hc : (splitFirst (fun c => c = ':') cs).1 ≠ [] ∧ headAlpha cs = true ∧
        (splitFirst (fun c => c = ':') cs).1.all isSchemeChar = true
    · have hc2 : pyLower (splitFirst (fun c => c = ':') cs).1 ≠ [] ∧
          headAlpha (pyLower cs) = true ∧
          (pyLower (splitFirst (fun c => c = ':') cs).1).all isSchemeChar = true := by
        refine ⟨fun hx => hc.1 (pyLower_nil_iff.mp hx), ?_, ?_⟩
        · rw [headAlpha_pyLower]; exact hc.2.1
        · rw [all_isSchemeChar_pyLower]; exact hc.2.2
      rw [if_pos hc2, if_pos hc]
    · have hc2 : ¬ (pyLower (splitFirst (fun c => c = ':') cs).1 ≠ [] ∧
          headAlpha (pyLower cs) = true ∧
          (pyLower (splitFirst (fun c => c = ':') cs).1).all isSchemeChar = true) := by
        intro hx
        refine hc ⟨fun he => hx.1 (by rw [he]; rfl), ?_, ?_⟩
        · rw [← headAlpha_pyLower]; exact hx.2.1
        · rw [← all_isSchemeChar_pyLower]; exact hx.2.2
      rw [if_neg hc2, if_neg hc]
      rfl

theorem schemeSplit_fst_pyLower (cs : List Char) :
    (schemeSplit (pyLower cs)).1 = pyLower (schemeSplit cs).1 := by
  rw [schemeSplit_pyLower]

theorem schemeSplit_snd_pyLower (cs : List Char) :
    (schemeSplit (pyLower cs)).2 = pyLower (schemeSplit cs).2 := by
  rw [schemeSplit_pyLower]

theorem fragSplit_pyLower (l : List Char) :
    fragSplit (pyLower l) = (pyLower (fragSplit l).1, pyLower (fragSplit l).2) := by
  unfold fragSplit
  rw [splitFirst_pyLower hash_test_toLower]
  cases h : (splitFirst (fun c => c = '#') l).2 with
  | none => simp only [h, Option.map_none']; rfl
  | some a => simp only [h, Option.map_some']

theorem querySplit_pyLower (l : List Char) :
    querySplit (pyLower l) = (pyLower (querySplit l).1, pyLower (querySplit l).2) := by
  unfold querySplit
  rw [splitFirst_pyLower quest_test_toLower]
  cases h : (splitFirst (fun c => c = '?') l).2 with
  | none => simp only [h, Option.map_none']; rfl
  | some a => simp only [h, Option.map_some']

theorem urlsplitRest_pyLower (s n r2 : List Char) :
    urlsplitRest (pyLower s) (pyLower n) (pyLower r2) =
      lowerP (urlsplitRest s n r2) := by
  unfold urlsplitRest
  rw [fragSplit_pyLower]
  show ParsedURL.mk _ _ (querySplit (pyLower (fragSplit r2).1)).1
    (querySplit (pyLower (fragSplit r2).1)).2 (pyLower (fragSplit r2).2) = _
  rw [querySplit_pyLower]
  rfl

theorem netlocOf_pyLower (cs : List Char) :
    netlocOf (pyLower cs) = pyLower (netlocOf cs) := by
  unfold netlocOf
  rw [schemeSplit_snd_pyLower, drop_pyLower, takeWhile_pyLower not_delim_test_toLower]

theorem restAfterNetloc_pyLower (cs : List Char) :
    restAfterNetloc (pyLower cs) = pyLower (restAfterNetloc cs) := by
  unfold restAfterNetloc
  rw [schemeSplit_snd_pyLower, drop_pyLower, dropWhile_pyLower not_delim_test_toLower]

theorem take2_pyLower_iff (cs : List Char) :
    (((schemeSplit (pyLower cs)).2).take 2 = ['/', '/']) ↔
      (((schemeSplit cs).2).take 2 = ['/', '/']) := by
  rw [schemeSplit_snd_pyLower]
  exact pyLower_take2_slash _

theorem brackets_pyLower_iff (cs : List Char) :
    (('[' ∈ netlocOf (pyLower cs) ∧ ¬ ']' ∈ netlocOf (pyLower cs)) ∨
      (']' ∈ netlocOf (pyLower cs) ∧ ¬ '[' ∈ netlocOf (pyLower cs))) ↔
    (('[' ∈ netlocOf cs ∧ ¬ ']' ∈ netlocOf cs) ∨
      (']' ∈ netlocOf cs ∧ ¬ '[' ∈ netlocOf cs)) := by
  rw [netlocOf_pyLower, mem_lb_fix, mem_rb_fix]

theorem urlsplitChars_pyLower (cs : List Char) :
    urlsplitChars (pyLower cs) = (urlsplitChars cs).map lowerP := by
  unfold urlsplitChars
  by_cases h2 : ((schemeSplit cs).2).take 2 = ['/', '/']
  · rw [if_pos ((take2_pyLower_iff cs).mpr h2), if_pos h2]
    by_cases hbr : ('[' ∈ netlocOf cs ∧ ¬ ']' ∈ netlocOf cs) ∨
        (']' ∈ netlocOf cs ∧ ¬ '[' ∈ netlocOf cs)
    · rw [if_pos ((brackets_pyLower_iff cs).mpr hbr), if_pos hbr]
      rfl
    · rw [if_neg (fun hx => hbr ((brackets_pyLower_iff cs).mp hx)), if_neg hbr]
      rw [schemeSplit_fst_pyLower, netlocOf_pyLower, restAfterNetloc_pyLower,
        urlsplitRest_pyLower]
      rfl
  · rw [if_neg (fun hx => h2 ((take2_pyLower_iff cs).mp hx)), if_neg h2]
    rw [schemeSplit_fst_pyLower, schemeSplit_snd_pyLower,
      show ([] : List Char) = pyLower [] from rfl, urlsplitRest_pyLower]
    rfl

theorem schemeSplit_lower_fix (cs : List Char) :
    pyLower (schemeSplit cs).1 = (schemeSplit cs).1 := by
  unfold schemeSplit
  split
  · split
    · exact pyLower_pyLower _
    · rfl
  · rfl

theorem urlsplitChars_scheme_lower {cs : List Char} {r : ParsedURL}
    (h : urlsplitChars cs = some r) : pyLower r.scheme = r.scheme := by
  unfold urlsplitChars at h
  by_cases h2 : ((schemeSplit cs).2).take 2 = ['/', '/']
  · rw [if_pos h2] at h
    by_cases hbr : ('[' ∈ netlocOf cs ∧ ¬ ']' ∈ netlocOf cs) ∨
        (']' ∈ netlocOf cs ∧ ¬ '[' ∈ netlocOf cs)
    · rw [if_pos hbr] at h; exact absurd h (by simp)
    · rw [if_neg hbr] at h
      rw [show r.scheme = (schemeSplit cs).1 from by rw [← Option.some.inj h]; rfl]
      exact schemeSplit_lower_fix cs
  · rw [if_neg h2] at h
    rw [show r.scheme = (schemeSplit cs).1 from by rw [← Option.some.inj h]; rfl]
    exact schemeSplit_lower_fix cs

theorem lastSegOf_pyLower (path : List Char) :
    lastSegOf (pyLower path) = pyLower (lastSegOf path) := by
  unfold lastSegOf
  rw [← pyLower_reverse, takeWhile_pyLower not_slash_test_toLower, ← pyLower_reverse]

theorem splitParams_pyLower (path : List Char) :
    splitParams (pyLower path) = pyLower (splitParams path) := by
  unfold splitParams
  by_cases hs : '/' ∈ path
  · rw [if_pos ((mem_slash_fix path).mpr hs), if_pos hs]
    rw [lastSegOf_pyLower, splitFirst_pyLower semi_test_toLower]
    cases hsp : (splitFirst (fun c => c = ';') (lastSegOf path)).2 with
    | none => simp only [hsp, Option.map_none']
    | some ps =>
      simp only [hsp, Option.map_some']
      rw [pyLower_length, pyLower_length, take_pyLower, ← pyLower_append]
  · rw [if_neg (fun hx => hs ((mem_slash_fix path).mp hx)), if_neg hs]
    rw [splitFirst_pyLower semi_test_toLower]
    cases hsp : (splitFirst (fun c => c = ';') path).2 with
    | none => simp only [hsp, Option.map_none']
    | some ps => simp only [hsp, Option.map_some']

theorem urlparseChars_pyLower (cs : List Char) :
    urlparseChars (pyLower cs) = (urlparseChars cs).map lowerP := by
  unfold urlparseChars
  rw [urlsplitChars_pyLower]
  cases h : urlsplitChars cs with
  | none => rfl
  | some r =>
    simp only [Option.map_some']
    have hsch : (lowerP r).scheme = r.scheme := urlsplitChars_scheme_lower h
    by_cases hc : String.mk r.scheme ∈ uses_params ∧ ';' ∈ r.path
    · have hc2 : String.mk (lowerP r).scheme ∈ uses_params ∧ ';' ∈ (lowerP r).path := by
        refine ⟨by rw [hsch]; exact hc.1, ?_⟩
        show ';' ∈ pyLower r.path
        exact (mem_semi_fix r.path).mpr hc.2
      rw [if_pos hc2, if_pos hc]
      simp only [Option.map_some', lowerP]
      rw [splitParams_pyLower]
    · have hc2 : ¬ (String.mk (lowerP r).scheme ∈ uses_params ∧
          ';' ∈ (lowerP r).path) := by
        intro hx
        refine hc ⟨by rw [← hsch]; exact hx.1, ?_⟩
        exact (mem_semi_fix r.path).mp hx.2
      rw [if_neg hc2, if_neg hc]
      rfl

theorem rstripSlash_pyLower (l : List Char) :
    rstripSlash (pyLower l) = pyLower (rstripSlash l) := by
  unfold rstripSlash
  rw [← pyLower_reverse, dropWhile_pyLower slash_test_toLower, ← pyLower_reverse]

theorem rebuild_lowerP (r : ParsedURL) :
    pyLower (rebuild (lowerP r)) = pyLower (rebuild r) := by
  have hq : ((lowerP r).query ≠ []) ↔ (r.query ≠ []) := by
    simp [lowerP, pyLower_nil_iff]
  unfold rebuild
  by_cases h : r.query ≠ []
  · rw [if_pos (hq.mpr h), if_pos h]
    simp only [lowerP]
    rw [rstripSlash_pyLower]
    simp only [pyLower_append, pyLower_cons, pyLower_pyLower, toLower_toLower,
      show Char.toLower ':' = ':' from rfl, show Char.toLower '/' = '/' from rfl,
      show Char.toLower '?' = '?' from rfl]
  · rw [if_neg (fun hx => h (hq.mp hx)), if_neg h]
    simp only [lowerP]
    rw [rstripSlash_pyLower]
    simp only [pyLower_append, pyLower_cons, pyLower_pyLower,
      show Char.toLower ':' = ':' from rfl, show Char.toLower '/' = '/' from rfl]

/-- `normalize_url` depends on its input only through its lower-casing. -/
theorem normalize_url_lower (cs : List Char) :
    normalize_url (String.mk (pyLower cs)) = normalize_url (String.mk cs) := by
  unfold normalize_url
  rw [show (String.mk (pyLower cs)).data = pyLower cs from rfl,
    show (String.mk cs).data = cs from rfl, urlparseChars_pyLower]
  cases h : urlparseChars cs with
  | none => rfl
  | some r =>
    simp only [Option.map_some']
    rw [rebuild_lowerP]

/-! ## Component facts of the URL parse -/

theorem head_dropWhile_not {p : Char → Bool} (l : List Char) {a : Char}
    (h : (l.dropWhile p).head? = some a) : p a = false := by
  induction l with
  | nil => simp [List.dropWhile] at h
  | cons c t ih =>
    by_cases hc : p c = true
    · rw [List.dropWhile_cons_of_pos hc] at h
      exact ih h
    · rw [List.dropWhile_cons_of_neg (by simp [hc] : ¬ p c = true)] at h
      have hca : c = a := by simpa using h
      subst hca
      simpa using hc

theorem mem_rstripSlash {c : Char} {l : List Char} (h : c ∈ rstripSlash l) : c ∈ l := by
  unfold rstripSlash at h
  rw [List.mem_reverse] at h
  have h2 := (List.dropWhile_sublist (fun c => c = '/')).mem h
  rwa [List.mem_reverse] at h2

theorem rstripSlash_getLast {l : List Char} :
    (rstripSlash l).getLast? ≠ some '/' := by
  intro h
  unfold rstripSlash at h
  rw [← List.head?_reverse, List.reverse_reverse] at h
  have := head_dropWhile_not _ h
  simp at this

theorem rstripSlash_eq_self {l : List Char} (h : l.getLast? ≠ some '/') :
    rstripSlash l = l := by
  unfold rstripSlash
  cases hl : l.reverse with
  | nil =>
    have : l = [] := by simpa using congrArg List.reverse hl
    simp [this]
  | cons a t =>
    have ha : a ≠ '/' := by
      intro hx
      apply h
      rw [← List.head?_reverse, hl, hx]
      rfl
    rw [List.dropWhile_cons, if_neg (by simp [ha])]
    rw [← hl, List.reverse_reverse]

theorem headAlpha_append_left {l1 : List Char} (h : l1 ≠ []) (l2 : List Char) :
    headAlpha (l1 ++ l2) = headAlpha l1 := by
  cases l1 with
  | nil => exact absurd rfl h
  | cons c t => rfl

theorem mem_schemeSplit_snd {cs : List Char} {c : Char}
    (h : c ∈ (schemeSplit cs).2) : c ∈ cs := by
  unfold schemeSplit at h
  cases hsp : (splitFirst (fun c => c = ':') cs).2 with
  | none =>
    simp only [hsp] at h
    exact h
  | some after =>
    simp only [hsp] at h
    rcases splitFirst_some hsp with ⟨d, _, hcs⟩
    by_cases hc : (splitFirst (fun c => c = ':') cs).1 ≠ [] ∧ headAlpha cs = true ∧
        (splitFirst (fun c => c = ':') cs).1.all isSchemeChar = true
    · rw [if_pos hc] at h
      rw [hcs]
      simp only [List.mem_append, List.mem_cons]
      right; right
      exact h
    · rw [if_neg hc] at h
      exact h

theorem mem_fragSplit_fst {r2 : List Char} {c : Char}
    (h : c ∈ (fragSplit r2).1) : c ∈ r2 := by
  unfold fragSplit at h
  cases hf : (splitFirst (fun c => c = '#') r2).2 with
  | none => simp only [hf] at h; exact h
  | some a =>
    simp only [hf] at h
    rcases splitFirst_some hf with ⟨d, _, hr⟩
    rw [hr]
    simp only [List.mem_append]
    left
    exact h

theorem mem_fragSplit_snd {r2 : List Char} {c : Char}
    (h : c ∈ (fragSplit r2).2) : c ∈ r2 := by
  unfold fragSplit at h
  cases hf : (splitFirst (fun c => c = '#') r2).2 with
  | none => simp only [hf] at h; simp at h
  | some a =>
    simp only [hf] at h
    rcases splitFirst_some hf with ⟨d, _, hr⟩
    rw [hr]
    simp only [List.mem_append, List.mem_cons]
    right; right
    exact h

theorem fragSplit_fst_no_hash {r2 : List Char} : '#' ∉ (fragSplit r2).1 := by
  intro h
  unfold fragSplit at h
  cases hf : (splitFirst (fun c => c = '#') r2).2 with
  | none =>
    simp only [hf] at h
    have := (splitFirst_none hf).2 '#' h
    simp at this
  | some a =>
    simp only [hf] at h
    have := splitFirst_before_not '#' h
    simp at this

theorem mem_querySplit_fst {u : List Char} {c : Char}
    (h : c ∈ (querySplit u).1) : c ∈ u := by
  unfold querySplit at h
  cases hf : (splitFirst (fun c => c = '?') u).2 with
  | none => simp only [hf] at h; exact h
  | some a =>
    simp only [hf] at h
    rcases splitFirst_some hf with ⟨d, _, hr⟩
    rw [hr]
    simp only [List.mem_append]
    left
    exact h

theorem mem_querySplit_snd {u : List Char} {c : Char}
    (h : c ∈ (querySplit u).2) : c ∈ u := by
  unfold querySplit at h
  cases hf : (splitFirst (fun c => c = '?') u).2 with
  | none => simp only [hf] at h; simp at h
  | some a =>
    simp only [hf] at h
    rcases splitFirst_some hf with ⟨d, _, hr⟩
    rw [hr]
    simp only [List.mem_append, List.mem_cons]
    right; right
    exact h

theorem querySplit_fst_no_quest {u : List Char} : '?' ∉ (querySplit u).1 := by
  intro h
  unfold querySplit at h
  cases hf : (splitFirst (fun c => c = '?') u).2 with
  | none =>
    simp only [hf] at h
    have := (splitFirst_none hf).2 '?' h
    simp at this
  | some a =>
    simp only [hf] at h
    have := splitFirst_before_not '?' h
    simp at this

theorem mem_lastSegOf {path : List Char} {c : Char} (h : c ∈ lastSegOf path) :
    c ∈ path := by
  unfold lastSegOf at h
  rw [List.mem_reverse] at h
  have h2 := (List.takeWhile_sublist (fun c => ¬ (c = '/'))).mem h
  rwa [List.mem_reverse] at h2

theorem mem_splitParams {path : List Char} {c : Char} (h : c ∈ splitParams path) :
    c ∈ path := by
  unfold splitParams at h
  by_cases hs : '/' ∈ path
  · rw [if_pos hs] at h
    cases hf : (splitFirst (fun c => c = ';') (lastSegOf path)).2 with
    | none => simp only [hf] at h; exact h
    | some a =>
      simp only [hf] at h
      rcases List.mem_append.mp h with h1 | h1
      · exact (List.take_sublist _ _).mem h1
      · rcases splitFirst_some hf with ⟨d, _, hr⟩
        refine @mem_lastSegOf path c ?_
        rw [hr]
        simp only [List.mem_append]
        left
        exact h1
  · rw [if_neg hs] at h
    cases hf : (splitFirst (fun c => c = ';') path).2 with
    | none => simp only [hf] at h; exact h
    | some a =>
      simp only [hf] at h
      rcases splitFirst_some hf with ⟨d, _, hr⟩
      rw [hr]
      simp only [List.mem_append]
      left
      exact h

theorem mem_netlocOf {cs : List Char} {c : Char} (h : c ∈ netlocOf cs) :
    isNetlocDelim c = false ∧ c ∈ cs := by
  unfold netlocOf at h
  constructor
  · have := List.mem_takeWhile_imp h
    simpa using this
  · have h2 := (List.takeWhile_sublist _).mem h
    have h3 := (List.drop_sublist 2 _).mem h2
    exact mem_schemeSplit_snd h3

theorem mem_restAfterNetloc {cs : List Char} {c : Char} (h : c ∈ restAfterNetloc cs) :
    c ∈ cs := by
  unfold restAfterNetloc at h
  have h2 := (List.dropWhile_sublist _).mem h
  have h3 := (List.drop_sublist 2 _).mem h2
  exact mem_schemeSplit_snd h3

theorem schemeSplit_fst_props (cs : List Char) :
    (schemeSplit cs).1 = [] ∨
      (pyLower (schemeSplit cs).1 = (schemeSplit cs).1 ∧
        headAlpha (schemeSplit cs).1 = true ∧
        (schemeSplit cs).1.all isSchemeChar = true) := by
  unfold schemeSplit
  split
  next after hsp =>
    split
    next hc =>
      right
      refine ⟨pyLower_pyLower _, ?_, ?_⟩
      · refine (headAlpha_pyLower _).trans ?_
        rcases splitFirst_some hsp with ⟨d, _, hcs⟩
        have h2 := hc.2.1
        rw [hcs, headAlpha_append_left hc.1] at h2
        exact h2
      · exact (all_isSchemeChar_pyLower _).trans hc.2.2
    next => left; rfl
  next => left; rfl

theorem urlsplitChars_props {cs : List Char} {r : ParsedURL}
    (h : urlsplitChars cs = some r) :
    (∀ c ∈ r.netloc, isNetlocDelim c = false ∧ c ∈ cs) ∧
    (∀ c ∈ r.path, c ≠ '#' ∧ c ≠ '?' ∧ c ∈ cs) ∧
    (∀ c ∈ r.query, c ≠ '#' ∧ c ∈ cs) ∧
    (r.scheme ≠ [] → pyLower r.scheme = r.scheme ∧ headAlpha r.scheme = true ∧
      r.scheme.all isSchemeChar = true) := by
  have hpath : ∀ R : List Char, (∀ c ∈ R, c ∈ cs) →
      ∀ c ∈ (querySplit (fragSplit R).1).1, c ≠ '#' ∧ c ≠ '?' ∧ c ∈ cs := by
    intro R hR c hc
    have h1 := mem_querySplit_fst hc
    refine ⟨?_, ?_, hR c (mem_fragSplit_fst h1)⟩
    · intro he; subst he; exact fragSplit_fst_no_hash h1
    · intro he; subst he; exact querySplit_fst_no_quest hc
  have hquery : ∀ R : List Char, (∀ c ∈ R, c ∈ cs) →
      ∀ c ∈ (querySplit (fragSplit R).1).2, c ≠ '#' ∧ c ∈ cs := by
    intro R hR c hc
    have h1 := mem_querySplit_snd hc
    refine ⟨?_, hR c (mem_fragSplit_fst h1)⟩
    intro he; subst he; exact fragSplit_fst_no_hash h1
  have hsch : (schemeSplit cs).1 ≠ [] →
      pyLower (schemeSplit cs).1 = (schemeSplit cs).1 ∧
        headAlpha (schemeSplit cs).1 = true ∧
        (schemeSplit cs).1.all isSchemeChar = true := by
    intro hne
    rcases schemeSplit_fst_props cs with he | hp
    · exact absurd he hne
    · exact hp
  unfold urlsplitChars at h
  by_cases h2 : ((schemeSplit cs).2).take 2 = ['/', '/']
  · rw [if_pos h2] at h
    by_cases hbr : ('[' ∈ netlocOf cs ∧ ¬ ']' ∈ netlocOf cs) ∨
        (']' ∈ netlocOf cs ∧ ¬ '[' ∈ netlocOf cs)
    · rw [if_pos hbr] at h
      exact absurd h (by simp)
    · rw [if_neg hbr] at h
      have hre := Option.some.inj h
      rw [← hre]
      refine ⟨?_, hpath _ (fun c hc => mem_restAfterNetloc hc), ?_, hsch⟩
      · intro c hc
        exact mem_netlocOf hc
      · exact hquery _ (fun c hc => mem_restAfterNetloc hc)
  · rw [if_neg h2] at h
    have hre := Option.some.inj h
    rw [← hre]
    refine ⟨?_, hpath _ (fun c hc => mem_schemeSplit_snd hc), ?_, hsch⟩
    · intro c hc
      simp [urlsplitRest] at hc
    · exact hquery _ (fun c hc => mem_schemeSplit_snd hc)

theorem urlparseChars_props {cs : List Char} {r : ParsedURL}
    (h : urlparseChars cs = some r) :
    (∀ c ∈ r.netloc, isNetlocDelim c = false ∧ c ∈ cs) ∧
    (∀ c ∈ r.path, c ≠ '#' ∧ c ≠ '?' ∧ c ∈ cs) ∧
    (∀ c ∈ r.query, c ≠ '#' ∧ c ∈ cs) ∧
    (r.scheme ≠ [] → pyLower r.scheme = r.scheme ∧ headAlpha r.scheme = true ∧
      r.scheme.all isSchemeChar = true) := by
  unfold urlparseChars at h
  cases hu : urlsplitChars cs with
  | none =>
    simp only [hu] at h
    exact Option.noConfusion h
  | some r0 =>
    simp only [hu] at h
    rcases urlsplitChars_props hu with ⟨hn, hp, hq, hs⟩
    by_cases hc : String.mk r0.scheme ∈ uses_params ∧ ';' ∈ r0.path
    · rw [if_pos hc] at h
      have hre := Option.some.inj h
      rw [← hre]
      refine ⟨hn, ?_, hq, hs⟩
      intro c hcm
      exact hp c (mem_splitParams hcm)
    · rw [if_neg hc] at h
      have hre := Option.some.inj h
      rw [← hre]
      exact ⟨hn, hp, hq, hs⟩

/-! ## `normalize_url` output shape and fixed points -/

theorem schemeSplit_of_scheme {s : List Char} (rest : List Char)
    (hs1 : s ≠ []) (hs2 : headAlpha s = true) (hs3 : s.all isSchemeChar = true)
    (hs4 : pyLower s = s) :
    schemeSplit (s ++ ':' :: rest) = (s, rest) := by
  have hcol : ∀ c ∈ s, (decide (c = ':')) = false := by
    intro c hc
    have hsc := List.all_eq_true.mp hs3 c hc
    simp only [decide_eq_false_iff_not]
    intro he
    subst he
    have h58 : (':' : Char).toNat = 58 := rfl
    rw [isSchemeChar_iff, h58] at hsc
    omega
  unfold schemeSplit
  simp only [splitFirst_delim hcol
    (show decide ((':' : Char) = ':') = true by decide) rest]
  have hcond : s ≠ [] ∧ headAlpha (s ++ ':' :: rest) = true ∧
      s.all isSchemeChar = true :=
    ⟨hs1, by rw [headAlpha_append_left hs1]; exact hs2, hs3⟩
  rw [if_pos hcond, hs4]

theorem takeWhile_nodelim_append {M Q lq : List Char}
    (hQ : Q = [] ∨ Q = '?' :: lq) :
    ((M ++ Q).takeWhile (fun c => ¬ isNetlocDelim c) =
      M.takeWhile (fun c => ¬ isNetlocDelim c)) ∧
    ((M ++ Q).dropWhile (fun c => ¬ isNetlocDelim c) =
      M.dropWhile (fun c => ¬ isNetlocDelim c) ++ Q) := by
  have hq1 : Q.takeWhile (fun c => ¬ isNetlocDelim c) = [] := by
    rcases hQ with rfl | rfl
    · rfl
    · rw [List.takeWhile_cons, if_neg (by decide)]
  have hq2 : Q.dropWhile (fun c => ¬ isNetlocDelim c) = Q := by
    rcases hQ with rfl | rfl
    · rfl
    · rw [List.dropWhile_cons, if_neg (by decide)]
  rw [List.takeWhile_append, List.dropWhile_append]
  by_cases hall : (M.takeWhile (fun c => ¬ isNetlocDelim c)).length = M.length
  · have htM : M.takeWhile (fun c => ¬ isNetlocDelim c) = M :=
      (List.takeWhile_sublist _).eq_of_length hall
    have hdM : M.dropWhile (fun c => ¬ isNetlocDelim c) = [] := by
      have hsum := List.takeWhile_append_dropWhile
        (fun c => (¬ isNetlocDelim c : Bool)) M
      rw [htM] at hsum
      exact List.append_right_eq_self.mp hsum
    constructor
    · rw [if_pos hall, hq1, List.append_nil, htM]
    · rw [if_pos (show (M.dropWhile (fun c => ¬ isNetlocDelim c)).isEmpty = true from
        by rw [hdM]; rfl), hq2, hdM, List.nil_append]
  · have hde : ¬ (M.dropWhile (fun c => ¬ isNetlocDelim c)).isEmpty = true := by
      intro hx
      apply hall
      have hd := List.isEmpty_iff.mp hx
      have hsum := List.takeWhile_append_dropWhile
        (fun c => (¬ isNetlocDelim c : Bool)) M
      rw [hd, List.append_nil] at hsum
      rw [hsum]
    exact ⟨by rw [if_neg hall], by rw [if_neg hde]⟩

theorem fragSplit_no_match {x : List Char} (h : '#' ∉ x) : fragSplit x = (x, []) := by
  unfold fragSplit
  rw [splitFirst_no_match (fun c hc => by
    simp only [decide_eq_false_iff_not]
    intro he; subst he; exact h hc)]

theorem querySplit_no_match {x : List Char} (h : '?' ∉ x) : querySplit x = (x, []) := by
  unfold querySplit
  rw [splitFirst_no_match (fun c hc => by
    simp only [decide_eq_false_iff_not]
    intro he; subst he; exact h hc)]

theorem querySplit_delim {x q : List Char} (h : '?' ∉ x) :
    querySplit (x ++ '?' :: q) = (x, q) := by
  unfold querySplit
  rw [splitFirst_delim (fun c hc => by
    simp only [decide_eq_false_iff_not]
    intro he; subst he; exact h hc) (by decide) q]

/-- Parsing a rebuilt URL `scheme://M?q` recovers the scheme, splits `M` at
its first delimiter into netloc and path, and recovers the query. -/
theorem urlsplitChars_shape {s M Q q : List Char}
    (hs1 : s ≠ []) (hs2 : headAlpha s = true) (hs3 : s.all isSchemeChar = true)
    (hs4 : pyLower s = s)
    (hM1 : '#' ∉ M) (hM2 : '?' ∉ M) (hM4 : '[' ∉ M) (hM5 : ']' ∉ M)
    (hQ : (Q = [] ∧ q = []) ∨ (Q = '?' :: q ∧ '#' ∉ q)) :
    urlsplitChars (s ++ ':' :: '/' :: '/' :: (M ++ Q)) =
      some ⟨s, M.takeWhile (fun c => ¬ isNetlocDelim c),
        M.dropWhile (fun c => ¬ isNetlocDelim c), q, []⟩ := by
  have hQ2 : Q = [] ∨ Q = '?' :: q := by
    rcases hQ with ⟨h1, _⟩ | ⟨h1, _⟩
    · exact Or.inl h1
    · exact Or.inr h1
  have hsch : schemeSplit (s ++ ':' :: '/' :: '/' :: (M ++ Q)) =
      (s, '/' :: '/' :: (M ++ Q)) := schemeSplit_of_scheme _ hs1 hs2 hs3 hs4
  have htd := @takeWhile_nodelim_append M Q q hQ2
  have hnl : netlocOf (s ++ ':' :: '/' :: '/' :: (M ++ Q)) =
      M.takeWhile (fun c => ¬ isNetlocDelim c) := by
    unfold netlocOf
    rw [hsch]
    exact htd.1
  have hrst : restAfterNetloc (s ++ ':' :: '/' :: '/' :: (M ++ Q)) =
      M.dropWhile (fun c => ¬ isNetlocDelim c) ++ Q := by
    unfold restAfterNetloc
    rw [hsch]
    exact htd.2
  have hsubM : ∀ c ∈ M.dropWhile (fun c => ¬ isNetlocDelim c), c ∈ M :=
    fun c hc => (List.dropWhile_sublist _).mem hc
  have hnohash : '#' ∉ M.dropWhile (fun c => ¬ isNetlocDelim c) ++ Q := by
    intro hx
    rcases List.mem_append.mp hx with hx | hx
    · exact hM1 (hsubM _ hx)
    · rcases hQ with ⟨rfl, _⟩ | ⟨rfl, hq⟩
      · simp at hx
      · rcases List.mem_cons.mp hx with he | hx
        · exact absurd he (by decide)
        · exact hq hx
  have hfs : fragSplit (M.dropWhile (fun c => ¬ isNetlocDelim c) ++ Q) =
      (M.dropWhile (fun c => ¬ isNetlocDelim c) ++ Q, []) :=
    fragSplit_no_match hnohash
  have hnoq : '?' ∉ M.dropWhile (fun c => ¬ isNetlocDelim c) :=
    fun hx => hM2 (hsubM _ hx)
  unfold urlsplitChars
  simp only [hsch]
  rw [if_pos (show List.take 2 ('/' :: '/' :: (M ++ Q)) = ['/', '/'] from rfl)]
  rw [show netlocOf (s ++ ':' :: '/' :: '/' :: (M ++ Q)) =
    M.takeWhile (fun c => ¬ isNetlocDelim c) from hnl]
  rw [if_neg (by
    intro hx
    rcases hx with ⟨h1, _⟩ | ⟨h1, _⟩
    · exact hM4 ((List.takeWhile_sublist _).mem h1)
    · exact hM5 ((List.takeWhile_sublist _).mem h1))]
  rw [hrst]
  unfold urlsplitRest
  rw [hfs]
  rcases hQ with ⟨rfl, rfl⟩ | ⟨rfl, hq⟩
  · rw [List.append_nil, querySplit_no_match hnoq]
  · rw [querySplit_delim hnoq]

theorem urlparseChars_shape {s M Q q : List Char}
    (hs1 : s ≠ []) (hs2 : headAlpha s = true) (hs3 : s.all isSchemeChar = true)
    (hs4 : pyLower s = s)
    (hM1 : '#' ∉ M) (hM2 : '?' ∉ M) (hM3 : ';' ∉ M) (hM4 : '[' ∉ M) (hM5 : ']' ∉ M)
    (hQ : (Q = [] ∧ q = []) ∨ (Q = '?' :: q ∧ '#' ∉ q)) :
    urlparseChars (s ++ ':' :: '/' :: '/' :: (M ++ Q)) =
      some ⟨s, M.takeWhile (fun c => ¬ isNetlocDelim c),
        M.dropWhile (fun c => ¬ isNetlocDelim c), q, []⟩ := by
  unfold urlparseChars
  simp only [urlsplitChars_shape hs1 hs2 hs3 hs4 hM1 hM2 hM4 hM5 hQ]
  rw [if_neg (fun hx =>
    hM3 ((List.dropWhile_sublist (fun c => ¬ isNetlocDelim c)).mem hx.2))]

theorem rebuild_mk (s n p q : List Char) :
    rebuild ⟨s, n, p, q, []⟩ =
      if q ≠ [] then (s ++ ':' :: '/' :: '/' :: (n ++ rstripSlash p)) ++ '?' :: q
      else s ++ ':' :: '/' :: '/' :: (n ++ rstripSlash p) := rfl

/-- Any URL of the rebuilt form `scheme://M?q` (already lower-case, no
fragment, no `;params`, no brackets, no `#`/`?` inside `M`, and no trailing
slash) is a fixed point of `normalize_url`. -/
theorem normalize_url_fixed {s M Q q : List Char}
    (hs1 : s ≠ []) (hs2 : headAlpha s = true) (hs3 : s.all isSchemeChar = true)
    (hs4 : pyLower s = s)
    (hM1 : '#' ∉ M) (hM2 : '?' ∉ M) (hM3 : ';' ∉ M) (hM4 : '[' ∉ M) (hM5 : ']' ∉ M)
    (hM6 : M.getLast? ≠ some '/') (hM7 : pyLower M = M)
    (hQ : (Q = [] ∧ q = []) ∨ (Q = '?' :: q ∧ q ≠ [] ∧ '#' ∉ q ∧ pyLower q = q)) :
    normalize_url (String.mk (s ++ ':' :: '/' :: '/' :: (M ++ Q))) =
      some (String.mk (s ++ ':' :: '/' :: '/' :: (M ++ Q))) := by
  have hQw : (Q = [] ∧ q = []) ∨ (Q = '?' :: q ∧ '#' ∉ q) := by
    rcases hQ with ⟨h1, h2⟩ | ⟨h1, _, h3, _⟩
    · exact Or.inl ⟨h1, h2⟩
    · exact Or.inr ⟨h1, h3⟩
  have hp := urlparseChars_shape hs1 hs2 hs3 hs4 hM1 hM2 hM3 hM4 hM5 hQw
  have hM12 := List.takeWhile_append_dropWhile (fun c => (¬ isNetlocDelim c : Bool)) M
  have hrs : rstripSlash (M.dropWhile (fun c => ¬ isNetlocDelim c)) =
      M.dropWhile (fun c => ¬ isNetlocDelim c) := by
    cases hM2e : M.dropWhile (fun c => ¬ isNetlocDelim c) with
    | nil => rfl
    | cons a t =>
      rw [← hM2e]
      apply rstripSlash_eq_self
      have hne : M.dropWhile (fun c => ¬ isNetlocDelim c) ≠ [] := by
        rw [hM2e]; exact List.cons_ne_nil a t
      have hsome : (M.dropWhile (fun c => ¬ isNetlocDelim c)).getLast?.isSome :=
        List.getLast?_isSome.mpr hne
      have hlast : (M.dropWhile (fun c => ¬ isNetlocDelim c)).getLast? =
          M.getLast? := by
        conv_rhs => rw [← hM12]
        rw [List.getLast?_append, Option.or_of_isSome hsome]
      rw [hlast]
      exact hM6
  have hreb : rebuild ⟨s, M.takeWhile (fun c => ¬ isNetlocDelim c),
      M.dropWhile (fun c => ¬ isNetlocDelim c), q, []⟩ =
      s ++ ':' :: '/' :: '/' :: (M ++ Q) := by
    rw [rebuild_mk]
    rcases hQ with ⟨rfl, rfl⟩ | ⟨rfl, hqne, _, _⟩
    · rw [if_neg (by simp), hrs, hM12, List.append_nil]
    · rw [if_pos hqne, hrs, hM12]
      simp only [List.append_assoc, List.cons_append]
  have hfix : pyLower (s ++ ':' :: '/' :: '/' :: (M ++ Q)) =
      s ++ ':' :: '/' :: '/' :: (M ++ Q) := by
    rcases hQ with ⟨rfl, rfl⟩ | ⟨rfl, _, _, hql⟩
    · simp only [pyLower_append, pyLower_cons, hs4, hM7,
        show Char.toLower ':' = ':' from rfl, show Char.toLower '/' = '/' from rfl,
        show pyLower ([] : List Char) = [] from rfl]
    · simp only [pyLower_append, pyLower_cons, hs4, hM7, hql,
        show Char.toLower ':' = ':' from rfl, show Char.toLower '/' = '/' from rfl,
        show Char.toLower '?' = '?' from rfl]
  unfold normalize_url
  rw [show (String.mk (s ++ ':' :: '/' :: '/' :: (M ++ Q))).data =
    s ++ ':' :: '/' :: '/' :: (M ++ Q) from rfl]
  simp only [hp]
  rw [hreb, hfix]

theorem mem_hash_fix (l : List Char) : '#' ∈ pyLower l ↔ '#' ∈ l :=
  mem_pyLower_fix (by decide) (by decide) l

theorem mem_quest_fix (l : List Char) : '?' ∈ pyLower l ↔ '?' ∈ l :=
  mem_pyLower_fix (by decide) (by decide) l

/-- On inputs that parse with a non-empty scheme and contain no `;`, `[`
or `]`, `normalize_url` is idempotent: its output is its own fixed point. -/
theorem normalize_url_idem {u n : String} {r : ParsedURL}
    (h : urlparseChars u.data = some r) (hs : r.scheme ≠ [])
    (h1 : ';' ∉ u.data) (h2 : '[' ∉ u.data) (h3 : ']' ∉ u.data)
    (hn : normalize_url u = some n) :
    normalize_url n = some n := by
  rcases urlparseChars_props h with ⟨hnet, hpath, hquery, hschp⟩
  have hscheme := hschp hs
  have hM1 : '#' ∉ pyLower r.netloc ++ pyLower (rstripSlash r.path) := by
    intro hx
    rcases List.mem_append.mp hx with hx | hx
    · have := (hnet '#' ((mem_hash_fix _).mp hx)).1
      simp [isNetlocDelim] at this
    · exact (hpath '#' (mem_rstripSlash ((mem_hash_fix _).mp hx))).1 rfl
  have hM2 : '?' ∉ pyLower r.netloc ++ pyLower (rstripSlash r.path) := by
    intro hx
    rcases List.mem_append.mp hx with hx | hx
    · have := (hnet '?' ((mem_quest_fix _).mp hx)).1
      simp [isNetlocDelim] at this
    · exact (hpath '?' (mem_rstripSlash ((mem_quest_fix _).mp hx))).2.1 rfl
  have hM3 : ';' ∉ pyLower r.netloc ++ pyLower (rstripSlash r.path) := by
    intro hx
    rcases List.mem_append.mp hx with hx | hx
    · exact h1 (hnet ';' ((mem_semi_fix _).mp hx)).2
    · exact h1 (hpath ';' (mem_rstripSlash ((mem_semi_fix _).mp hx))).2.2
  have hM4 : '[' ∉ pyLower r.netloc ++ pyLower (rstripSlash r.path) := by
    intro hx
    rcases List.mem_append.mp hx with hx | hx
    · exact h2 (hnet '[' ((mem_lb_fix _).mp hx)).2
    · exact h2 (hpath '[' (mem_rstripSlash ((mem_lb_fix _).mp hx))).2.2
  have hM5 : ']' ∉ pyLower r.netloc ++ pyLower (rstripSlash r.path) := by
    intro hx
    rcases List.mem_append.mp hx with hx | hx
    · exact h3 (hnet ']' ((mem_rb_fix _).mp hx)).2
    · exact h3 (hpath ']' (mem_rstripSlash ((mem_rb_fix _).mp hx))).2.2
  have hM6 : (pyLower r.netloc ++ pyLower (rstripSlash r.path)).getLast? ≠
      some '/' := by
    rw [List.getLast?_append]
    intro hx
    rw [show pyLower (rstripSlash r.path) =
        List.map Char.toLower (rstripSlash r.path) from rfl,
      show pyLower r.netloc = List.map Char.toLower r.netloc from rfl,
      List.getLast?_map, List.getLast?_map] at hx
    cases hb : (rstripSlash r.path).getLast? with
    | some a =>
      rw [hb] at hx
      simp only [Option.map_some'] at hx
      have hx2 : Char.toLower a = '/' := Option.some.inj hx
      have ha : a = '/' := toLower_eq_low (by decide) hx2
      rw [ha] at hb
      exact rstripSlash_getLast hb
    | none =>
      rw [hb] at hx
      simp only [Option.map_none', Option.none_or] at hx
      cases hnl : r.netloc.getLast? with
      | some b =>
        rw [hnl] at hx
        simp only [Option.map_some'] at hx
        have hx2 : Char.toLower b = '/' := Option.some.inj hx
        have hb2 : b = '/' := toLower_eq_low (by decide) hx2
        have := (hnet b (List.mem_of_mem_getLast? hnl)).1
        rw [hb2] at this
        simp [isNetlocDelim] at this
      | none =>
        rw [hnl] at hx
        exact Option.noConfusion hx
  have hM7 : pyLower (pyLower r.netloc ++ pyLower (rstripSlash r.path)) =
      pyLower r.netloc ++ pyLower (rstripSlash r.path) := by
    rw [pyLower_append, pyLower_pyLower, pyLower_pyLower]
  unfold normalize_url at hn
  simp only [h] at hn
  rw [← Option.some.inj hn]
  by_cases hq : r.query ≠ []
  · have hform : pyLower (rebuild r) = r.scheme ++ ':' :: '/' :: '/' ::
        ((pyLower r.netloc ++ pyLower (rstripSlash r.path)) ++
          '?' :: pyLower r.query) := by
      unfold rebuild
      rw [if_pos hq]
      simp only [pyLower_append, pyLower_cons, hscheme.1,
        show Char.toLower ':' = ':' from rfl, show Char.toLower '/' = '/' from rfl,
        show Char.toLower '?' = '?' from rfl, List.append_assoc, List.cons_append]
    rw [hform]
    refine normalize_url_fixed hs hscheme.2.1 hscheme.2.2 hscheme.1
      hM1 hM2 hM3 hM4 hM5 hM6 hM7 (Or.inr ⟨rfl, ?_, ?_, pyLower_pyLower _⟩)
    · intro hx
      exact hq (pyLower_nil_iff.mp hx)
    · intro hx
      exact (hquery '#' ((mem_hash_fix _).mp hx)).1 rfl
  · have hq0 : r.query = [] := by
      by_contra hx
      exact hq hx
    have hform : pyLower (rebuild r) = r.scheme ++ ':' :: '/' :: '/' ::
        ((pyLower r.netloc ++ pyLower (rstripSlash r.path)) ++ []) := by
      unfold rebuild
      rw [if_neg hq]
      simp only [pyLower_append, pyLower_cons, hscheme.1,
        show Char.toLower ':' = ':' from rfl, show Char.toLower '/' = '/' from rfl,
        List.append_nil]
    rw [hform]
    exact normalize_url_fixed hs hscheme.2.1 hscheme.2.2 hscheme.1
      hM1 hM2 hM3 hM4 hM5 hM6 hM7 (Or.inl ⟨rfl, rfl⟩)

/-! ## Appending a fragment does not change the normalised URL -/

theorem splitFirst_append_no_match {p : Char → Bool} {l1 : List Char}
    (h : ∀ c ∈ l1, p c = false) (l2 : List Char) :
    splitFirst p (l1 ++ l2) =
      (l1 ++ (splitFirst p l2).1, (splitFirst p l2).2) := by
  induction l1 with
  | nil => simp
  | cons c t ih =>
    rw [List.cons_append, splitFirst, if_neg (by simp [h c (List.mem_cons_self c t)])]
    rw [ih (fun x hx => h x (List.mem_cons_of_mem c hx))]
    rfl

theorem fragSplit_delim {x f : List Char} (h : '#' ∉ x) :
    fragSplit (x ++ '#' :: f) = (x, f) := by
  unfold fragSplit
  rw [splitFirst_delim (fun c hc => by
    simp only [decide_eq_false_iff_not]
    intro he; subst he; exact h hc)
    (show decide (('#' : Char) = '#') = true by decide) f]

theorem urlsplitRest_of_clean {s n r2 : List Char} (hh : '#' ∉ r2) (hq : '?' ∉ r2) :
    urlsplitRest s n r2 = ⟨s, n, r2, [], []⟩ := by
  unfold urlsplitRest
  simp only [fragSplit_no_match hh, querySplit_no_match hq]

theorem urlsplitRest_append_hash {s n r2 : List Char} (f : List Char)
    (hh : '#' ∉ r2) :
    urlsplitRest s n (r2 ++ '#' :: f) =
      ⟨s, n, (querySplit r2).1, (querySplit r2).2, f⟩ := by
  unfold urlsplitRest
  simp only [fragSplit_delim hh]

theorem urlsplitRest_no_hash {s n r2 : List Char} (hh : '#' ∉ r2) :
    urlsplitRest s n r2 = ⟨s, n, (querySplit r2).1, (querySplit r2).2, []⟩ := by
  unfold urlsplitRest
  simp only [fragSplit_no_match hh]

theorem schemeSplit_append (cs x : List Char)
    (hx : ∀ b : List Char, (splitFirst (fun c => c = ':') x).2 = some b →
      (cs ++ (splitFirst (fun c => c = ':') x).1).all isSchemeChar = false) :
    schemeSplit (cs ++ x) = ((schemeSplit cs).1, (schemeSplit cs).2 ++ x) := by
  cases hsp : (splitFirst (fun c => c = ':') cs).2 with
  | some after =>
    rcases splitFirst_some hsp with ⟨d, hd, hcs⟩
    have hdc : d = ':' := by simpa using hd
    subst hdc
    have hcsne : cs ≠ [] := by
      rw [hcs]
      intro hk
      exact absurd (congrArg List.length hk) (by simp)
    have hsf : splitFirst (fun c => c = ':') (cs ++ x) =
        ((splitFirst (fun c => c = ':') cs).1, some (after ++ x)) := by
      conv_lhs => rw [hcs]
      rw [List.append_assoc, List.cons_append]
      exact splitFirst_delim splitFirst_before_not
        (show decide ((':' : Char) = ':') = true by decide) _
    unfold schemeSplit
    simp only [hsf, hsp]
    have hAeq : headAlpha (cs ++ x) = headAlpha cs := headAlpha_append_left hcsne x
    by_cases hc : (splitFirst (fun c => c = ':') cs).1 ≠ [] ∧ headAlpha cs = true ∧
        (splitFirst (fun c => c = ':') cs).1.all isSchemeChar = true
    · rw [if_pos ⟨hc.1, by rw [hAeq]; exact hc.2.1, hc.2.2⟩, if_pos hc]
    · rw [if_neg (fun hk => hc ⟨hk.1, by rw [← hAeq]; exact hk.2.1, hk.2.2⟩),
        if_neg hc]
  | none =>
    have hno := splitFirst_none hsp
    have hsf : splitFirst (fun c => c = ':') (cs ++ x) =
        (cs ++ (splitFirst (fun c => c = ':') x).1,
          (splitFirst (fun c => c = ':') x).2) :=
      splitFirst_append_no_match hno.2 x
    unfold schemeSplit
    simp only [hsf, hsp]
    cases hfx : (splitFirst (fun c => c = ':') x).2 with
    | none => rfl
    | some b =>
      show (if cs ++ (splitFirst (fun c => c = ':') x).1 ≠ [] ∧
          headAlpha (cs ++ x) = true ∧
          (cs ++ (splitFirst (fun c => c = ':') x).1).all isSchemeChar = true then
          (pyLower (cs ++ (splitFirst (fun c => c = ':') x).1), b)
        else (([] : List Char), cs ++ x)) = ([], cs ++ x)
      rw [if_neg (fun hk => by
        have h1 := hk.2.2
        rw [hx b hfx] at h1
        exact absurd h1 (by decide))]

theorem takeWhile_nodelim_append2 {M x : List Char}
    (hx : x = [] ∨ ∃ d y, x = d :: y ∧ isNetlocDelim d = true) :
    ((M ++ x).takeWhile (fun c => ¬ isNetlocDelim c) =
      M.takeWhile (fun c => ¬ isNetlocDelim c)) ∧
    ((M ++ x).dropWhile (fun c => ¬ isNetlocDelim c) =
      M.dropWhile (fun c => ¬ isNetlocDelim c) ++ x) := by
  have hq1 : x.takeWhile (fun c => ¬ isNetlocDelim c) = [] := by
    rcases hx with rfl | ⟨d, y, rfl, hd⟩
    · rfl
    · rw [List.takeWhile_cons, if_neg (by simp [hd])]
  have hq2 : x.dropWhile (fun c => ¬ isNetlocDelim c) = x := by
    rcases hx with rfl | ⟨d, y, rfl, hd⟩
    · rfl
    · rw [List.dropWhile_cons, if_neg (by simp [hd])]
  rw [List.takeWhile_append, List.dropWhile_append]
  by_cases hall : (M.takeWhile (fun c => ¬ isNetlocDelim c)).length = M.length
  · have htM : M.takeWhile (fun c => ¬ isNetlocDelim c) = M :=
      (List.takeWhile_sublist _).eq_of_length hall
    have hdM : M.dropWhile (fun c => ¬ isNetlocDelim c) = [] := by
      have hsum := List.takeWhile_append_dropWhile
        (fun c => (¬ isNetlocDelim c : Bool)) M
      rw [htM] at hsum
      exact List.append_right_eq_self.mp hsum
    constructor
    · rw [if_pos hall, hq1, List.append_nil, htM]
    · rw [if_pos (show (M.dropWhile (fun c => ¬ isNetlocDelim c)).isEmpty = true from
        by rw [hdM]; rfl), hq2, hdM, List.nil_append]
  · have hde : ¬ (M.dropWhile (fun c => ¬ isNetlocDelim c)).isEmpty = true := by
      intro hk
      apply hall
      have hd := List.isEmpty_iff.mp hk
      have hsum := List.takeWhile_append_dropWhile
        (fun c => (¬ isNetlocDelim c : Bool)) M
      rw [hd, List.append_nil] at hsum
      rw [hsum]
    exact ⟨by rw [if_neg hall], by rw [if_neg hde]⟩

theorem netlocOf_append {cs x : List Char}
    (hss : schemeSplit (cs ++ x) = ((schemeSplit cs).1, (schemeSplit cs).2 ++ x))
    (hlen : 2 ≤ (schemeSplit cs).2.length)
    (hx : x = [] ∨ ∃ d y, x = d :: y ∧ isNetlocDelim d = true) :
    netlocOf (cs ++ x) = netlocOf cs ∧
      restAfterNetloc (cs ++ x) = restAfterNetloc cs ++ x := by
  unfold netlocOf restAfterNetloc
  simp only [hss]
  rw [List.drop_append_of_le_length hlen]
  exact takeWhile_nodelim_append2 hx

theorem take2_append_hash (rest f : List Char) :
    ((rest ++ '#' :: f).take 2 = ['/', '/']) ↔ (rest.take 2 = ['/', '/']) := by
  match rest with
  | [] =>
    constructor
    · intro h
      have h2 : '#' :: f.take 1 = ['/', '/'] := by simpa using h
      injection h2 with ha
      exact absurd ha (by decide)
    · intro h
      simp at h
  | [a] =>
    constructor
    · intro h
      have h2 : a :: '#' :: f.take 0 = ['/', '/'] := by simpa using h
      injection h2 with ha hrest
      injection hrest with hb
      exact absurd hb (by decide)
    · intro h
      simp at h
  | a :: b :: t =>
    show ((a :: b :: (t ++ '#' :: f)).take 2 = ['/', '/']) ↔
      ((a :: b :: t).take 2 = ['/', '/'])
    simp

theorem length_ge_two_of_take2 {rest : List Char} (h : rest.take 2 = ['/', '/']) :
    2 ≤ rest.length := by
  have h2 := congrArg List.length h
  simp [List.length_take] at h2
  omega

theorem urlsplitChars_append_hash {cs : List Char} (f : List Char) (h : '#' ∉ cs) :
    urlsplitChars (cs ++ '#' :: f) =
      (urlsplitChars cs).map
        (fun r => ⟨r.scheme, r.netloc, r.path, r.query, f⟩) := by
  have hsf1 : splitFirst (fun c => c = ':') ('#' :: f) =
      ('#' :: (splitFirst (fun c => c = ':') f).1,
        (splitFirst (fun c => c = ':') f).2) := by
    rw [splitFirst, if_neg (by decide)]
  have hx : ∀ b : List Char,
      (splitFirst (fun c => c = ':') ('#' :: f)).2 = some b →
      (cs ++ (splitFirst (fun c => c = ':') ('#' :: f)).1).all isSchemeChar =
        false := by
    intro b hb
    rw [hsf1]
    cases he : (cs ++ '#' :: (splitFirst (fun c => c = ':') f).1).all isSchemeChar
    · rfl
    · have hm : '#' ∈ cs ++ '#' :: (splitFirst (fun c => c = ':') f).1 := by simp
      have := List.all_eq_true.mp he '#' hm
      exact absurd this (by decide)
  have hss := schemeSplit_append cs ('#' :: f) hx
  have hrest : '#' ∉ (schemeSplit cs).2 := fun hm => h (mem_schemeSplit_snd hm)
  unfold urlsplitChars
  by_cases ht : ((schemeSplit cs).2).take 2 = ['/', '/']
  · have hlen := length_ge_two_of_take2 ht
    have hnr := netlocOf_append hss hlen (Or.inr ⟨'#', f, rfl, by decide⟩)
    have ht2 : ((schemeSplit (cs ++ '#' :: f)).2).take 2 = ['/', '/'] := by
      rw [hss]
      exact (take2_append_hash _ f).mpr ht
    rw [if_pos ht2, if_pos ht]
    by_cases hbr : ('[' ∈ netlocOf cs ∧ ¬ ']' ∈ netlocOf cs) ∨
        (']' ∈ netlocOf cs ∧ ¬ '[' ∈ netlocOf cs)
    · have hbr2 : ('[' ∈ netlocOf (cs ++ '#' :: f) ∧
          ¬ ']' ∈ netlocOf (cs ++ '#' :: f)) ∨
          (']' ∈ netlocOf (cs ++ '#' :: f) ∧
            ¬ '[' ∈ netlocOf (cs ++ '#' :: f)) := by
        rw [hnr.1]
        exact hbr
      rw [if_pos hbr2, if_pos hbr]
      rfl
    · have hbr2 : ¬ (('[' ∈ netlocOf (cs ++ '#' :: f) ∧
          ¬ ']' ∈ netlocOf (cs ++ '#' :: f)) ∨
          (']' ∈ netlocOf (cs ++ '#' :: f) ∧
            ¬ '[' ∈ netlocOf (cs ++ '#' :: f))) := by
        rw [hnr.1]
        exact hbr
      rw [if_neg hbr2, if_neg hbr]
      rw [show (schemeSplit (cs ++ '#' :: f)).1 = (schemeSplit cs).1 from
        by rw [hss], hnr.1, hnr.2]
      have hrst : '#' ∉ restAfterNetloc cs := fun hm => h (mem_restAfterNetloc hm)
      rw [urlsplitRest_append_hash f hrst, urlsplitRest_no_hash hrst]
      rfl
  · have ht2 : ¬ ((schemeSplit (cs ++ '#' :: f)).2).take 2 = ['/', '/'] := by
      rw [hss]
      intro hk
      exact ht ((take2_append_hash _ f).mp hk)
    rw [if_neg ht2, if_neg ht]
    rw [show (schemeSplit (cs ++ '#' :: f)).1 = (schemeSplit cs).1 from by rw [hss],
      show (schemeSplit (cs ++ '#' :: f)).2 = (schemeSplit cs).2 ++ '#' :: f from
        by rw [hss]]
    rw [urlsplitRest_append_hash f hrest, urlsplitRest_no_hash hrest]
    rfl

theorem urlparseChars_append_hash {cs : List Char} (f : List Char) (h : '#' ∉ cs) :
    urlparseChars (cs ++ '#' :: f) =
      (urlparseChars cs).map
        (fun r => ⟨r.scheme, r.netloc, r.path, r.query, f⟩) := by
  unfold urlparseChars
  rw [urlsplitChars_append_hash f h]
  cases hu : urlsplitChars cs with
  | none => rfl
  | some r =>
    simp only [hu, Option.map_some']
    by_cases hc : String.mk r.scheme ∈ uses_params ∧ ';' ∈ r.path
    · rw [if_pos hc, if_pos hc]
      rfl
    · rw [if_neg hc, if_neg hc]
      rfl

/-- Appending `#fragment` to a fragment-free URL does not change its
normalisation. -/
theorem normalize_url_fragment (u f : String) (h : '#' ∉ u.data) :
    normalize_url (String.mk (u.data ++ '#' :: f.data)) = normalize_url u := by
  unfold normalize_url
  rw [show (String.mk (u.data ++ '#' :: f.data)).data =
    u.data ++ '#' :: f.data from rfl]
  rw [urlparseChars_append_hash f.data h]
  cases hu : urlparseChars u.data with
  | none => rfl
  | some r =>
    simp only [hu, Option.map_some']
    rfl

/-! ## A trailing slash does not change the normalised URL -/

theorem rstripSlash_append_slash (l : List Char) :
    rstripSlash (l ++ ['/']) = rstripSlash l := by
  unfold rstripSlash
  rw [List.reverse_append, show (['/'] : List Char).reverse = ['/'] from rfl,
    List.singleton_append, List.dropWhile_cons, if_pos (by decide)]

theorem urlsplitChars_append_slash {cs : List Char} (h1 : '#' ∉ cs) (h2 : '?' ∉ cs)
    (h3 : ¬ (schemeSplit cs).2 = ['/']) :
    urlsplitChars (cs ++ ['/']) =
      (urlsplitChars cs).map
        (fun r => ⟨r.scheme, r.netloc, r.path ++ ['/'], r.query, r.fragment⟩) := by
  have hss := schemeSplit_append cs ['/'] (fun b hb => by simp [splitFirst] at hb)
  have hrest_h : '#' ∉ (schemeSplit cs).2 := fun hm => h1 (mem_schemeSplit_snd hm)
  have hrest_q : '?' ∉ (schemeSplit cs).2 := fun hm => h2 (mem_schemeSplit_snd hm)
  unfold urlsplitChars
  by_cases ht : ((schemeSplit cs).2).take 2 = ['/', '/']
  · have hlen := length_ge_two_of_take2 ht
    have hnr := netlocOf_append hss hlen (Or.inr ⟨'/', [], rfl, by decide⟩)
    have ht2 : ((schemeSplit (cs ++ ['/'])).2).take 2 = ['/', '/'] := by
      rw [hss]
      show ((schemeSplit cs).2 ++ ['/']).take 2 = ['/', '/']
      rw [List.take_append_of_le_length hlen]
      exact ht
    rw [if_pos ht2, if_pos ht]
    by_cases hbr : ('[' ∈ netlocOf cs ∧ ¬ ']' ∈ netlocOf cs) ∨
        (']' ∈ netlocOf cs ∧ ¬ '[' ∈ netlocOf cs)
    · have hbr2 : ('[' ∈ netlocOf (cs ++ ['/']) ∧ ¬ ']' ∈ netlocOf (cs ++ ['/'])) ∨
          (']' ∈ netlocOf (cs ++ ['/']) ∧ ¬ '[' ∈ netlocOf (cs ++ ['/'])) := by
        rw [hnr.1]
        exact hbr
      rw [if_pos hbr2, if_pos hbr]
      rfl
    · have hbr2 : ¬ (('[' ∈ netlocOf (cs ++ ['/']) ∧
          ¬ ']' ∈ netlocOf (cs ++ ['/'])) ∨
          (']' ∈ netlocOf (cs ++ ['/']) ∧ ¬ '[' ∈ netlocOf (cs ++ ['/']))) := by
        rw [hnr.1]
        exact hbr
      rw [if_neg hbr2, if_neg hbr]
      rw [show (schemeSplit (cs ++ ['/'])).1 = (schemeSplit cs).1 from by rw [hss],
        hnr.1, hnr.2]
      have hch : '#' ∉ restAfterNetloc cs ++ ['/'] := by
        intro hm
        rcases List.mem_append.mp hm with hm | hm
        · exact h1 (mem_restAfterNetloc hm)
        · exact absurd (List.mem_singleton.mp hm) (by decide)
      have hcq : '?' ∉ restAfterNetloc cs ++ ['/'] := by
        intro hm
        rcases List.mem_append.mp hm with hm | hm
        · exact h2 (mem_restAfterNetloc hm)
        · exact absurd (List.mem_singleton.mp hm) (by decide)
      rw [urlsplitRest_of_clean hch hcq,
        urlsplitRest_of_clean (fun hm => h1 (mem_restAfterNetloc hm))
          (fun hm => h2 (mem_restAfterNetloc hm))]
      rfl
  · have ht2 : ¬ ((schemeSplit (cs ++ ['/'])).2).take 2 = ['/', '/'] := by
      rw [hss]
      show ¬ ((schemeSplit cs).2 ++ ['/']).take 2 = ['/', '/']
      cases hr : (schemeSplit cs).2 with
      | nil => decide
      | cons a t =>
        cases t with
        | nil =>
          intro hk
          have hk2 : a :: '/' :: ([] : List Char) = ['/', '/'] := by simpa using hk
          injection hk2 with ha
          rw [hr, ha] at h3
          exact h3 rfl
        | cons b t2 =>
          rw [List.take_append_of_le_length (by simp)]
          rw [← hr]
          exact ht
    rw [if_neg ht2, if_neg ht]
    rw [show (schemeSplit (cs ++ ['/'])).1 = (schemeSplit cs).1 from by rw [hss],
      show (schemeSplit (cs ++ ['/'])).2 = (schemeSplit cs).2 ++ ['/'] from
        by rw [hss]]
    have hch : '#' ∉ (schemeSplit cs).2 ++ ['/'] := by
      intro hm
      rcases List.mem_append.mp hm with hm | hm
      · exact hrest_h hm
      · exact absurd (List.mem_singleton.mp hm) (by decide)
    have hcq : '?' ∉ (schemeSplit cs).2 ++ ['/'] := by
      intro hm
      rcases List.mem_append.mp hm with hm | hm
      · exact hrest_q hm
      · exact absurd (List.mem_singleton.mp hm) (by decide)
    rw [urlsplitRest_of_clean hch hcq, urlsplitRest_of_clean hrest_h hrest_q]
    rfl

theorem rebuild_path_slash (r : ParsedURL) :
    rebuild ⟨r.scheme, r.netloc, r.path ++ ['/'], r.query, r.fragment⟩ =
      rebuild r := by
  have e1 : rebuild ⟨r.scheme, r.netloc, r.path ++ ['/'], r.query, r.fragment⟩ =
      if r.query ≠ [] then
        (r.scheme ++ ':' :: '/' :: '/' ::
          (r.netloc ++ rstripSlash (r.path ++ ['/']))) ++ '?' :: r.query
      else r.scheme ++ ':' :: '/' :: '/' ::
        (r.netloc ++ rstripSlash (r.path ++ ['/'])) := rfl
  have e2 : rebuild r =
      if r.query ≠ [] then
        (r.scheme ++ ':' :: '/' :: '/' ::
          (r.netloc ++ rstripSlash r.path)) ++ '?' :: r.query
      else r.scheme ++ ':' :: '/' :: '/' :: (r.netloc ++ rstripSlash r.path) := rfl
  rw [e1, e2, rstripSlash_append_slash]

theorem normalize_url_slash_special {u : String}
    (hsp : (schemeSplit u.data).2 = ['/']) :
    normalize_url (String.mk (u.data ++ ['/'])) = normalize_url u := by
  have hss := schemeSplit_append u.data ['/']
    (fun b hb => by simp [splitFirst] at hb)
  have e1 : urlsplitChars (u.data ++ ['/']) =
      some ⟨(schemeSplit u.data).1, [], [], [], []⟩ := by
    have hs2 : (schemeSplit (u.data ++ ['/'])).2 = ['/', '/'] := by
      rw [hss, hsp]
      rfl
    have hnl : netlocOf (u.data ++ ['/']) = [] := by
      unfold netlocOf
      rw [hs2]
      rfl
    have hrs : restAfterNetloc (u.data ++ ['/']) = [] := by
      unfold restAfterNetloc
      rw [hs2]
      rfl
    unfold urlsplitChars
    rw [if_pos (show ((schemeSplit (u.data ++ ['/'])).2).take 2 = ['/', '/'] from
      by rw [hs2]; rfl)]
    rw [if_neg (show ¬ (('[' ∈ netlocOf (u.data ++ ['/']) ∧
        ¬ ']' ∈ netlocOf (u.data ++ ['/'])) ∨
        (']' ∈ netlocOf (u.data ++ ['/']) ∧
          ¬ '[' ∈ netlocOf (u.data ++ ['/']))) from by rw [hnl]; simp)]
    rw [show (schemeSplit (u.data ++ ['/'])).1 = (schemeSplit u.data).1 from
      by rw [hss], hnl, hrs]
    rw [urlsplitRest_of_clean (by simp) (by simp)]
  have e2 : urlsplitChars u.data =
      some ⟨(schemeSplit u.data).1, [], ['/'], [], []⟩ := by
    unfold urlsplitChars
    rw [if_neg (show ¬ ((schemeSplit u.data).2).take 2 = ['/', '/'] from
      by rw [hsp]; decide)]
    rw [hsp]
    rw [urlsplitRest_of_clean (by decide) (by decide)]
  have p1 : urlparseChars (u.data ++ ['/']) =
      some ⟨(schemeSplit u.data).1, [], [], [], []⟩ := by
    unfold urlparseChars
    simp only [e1]
    have hng : ¬ (String.mk (schemeSplit u.data).1 ∈ uses_params ∧
        (';' : Char) ∈ ([] : List Char)) := fun hk => by simpa using hk.2
    rw [if_neg hng]
  have p2 : urlparseChars u.data =
      some ⟨(schemeSplit u.data).1, [], ['/'], [], []⟩ := by
    unfold urlparseChars
    simp only [e2]
    have hng : ¬ (String.mk (schemeSplit u.data).1 ∈ uses_params ∧
        (';' : Char) ∈ (['/'] : List Char)) := fun hk => by simpa using hk.2
    rw [if_neg hng]
  unfold normalize_url
  rw [show (String.mk (u.data ++ ['/'])).data = u.data ++ ['/'] from rfl]
  simp only [p1, p2]
  rfl

/-- Appending a trailing slash to a URL without query, fragment or params
does not change its normalisation. -/
theorem normalize_url_slash (u : String) (h1 : '#' ∉ u.data) (h2 : '?' ∉ u.data)
    (h3 : ';' ∉ u.data) :
    normalize_url (String.mk (u.data ++ ['/'])) = normalize_url u := by
  by_cases hsp : (schemeSplit u.data).2 = ['/']
  · exact normalize_url_slash_special hsp
  · have hmap := urlsplitChars_append_slash h1 h2 hsp
    have hup : urlparseChars (u.data ++ ['/']) =
        (urlparseChars u.data).map
          (fun r => ⟨r.scheme, r.netloc, r.path ++ ['/'], r.query, r.fragment⟩) := by
      unfold urlparseChars
      rw [hmap]
      cases hu : urlsplitChars u.data with
      | none => rfl
      | some r =>
        simp only [hu, Option.map_some']
        have hpn : ';' ∉ r.path :=
          fun hm => h3 ((urlsplitChars_props hu).2.1 ';' hm).2.2
        have hk1 : ¬ (String.mk r.scheme ∈ uses_params ∧
            ';' ∈ r.path ++ ['/']) := by
          intro hk
          rcases List.mem_append.mp hk.2 with hm | hm
          · exact hpn hm
          · exact absurd (List.mem_singleton.mp hm) (by decide)
        have hk2 : ¬ (String.mk r.scheme ∈ uses_params ∧ ';' ∈ r.path) :=
          fun hk => hpn hk.2
        rw [if_neg hk1, if_neg hk2]
        rfl
    unfold normalize_url
    rw [show (String.mk (u.data ++ ['/'])).data = u.data ++ ['/'] from rfl, hup]
    cases hu2 : urlparseChars u.data with
    | none => rfl
    | some r =>
      simp only [hu2, Option.map_some']
      rw [rebuild_path_slash]

/-! ## Claim C5 -/

/-- Claim C5, counterexample.  `normalize_url` is not idempotent: a
scheme-less URL gains a `://` prefix on every application, and a URL whose
last path segment carries `;params` interacts with trailing-slash
stripping, so a trailing slash changes the result and a second application
strips the params that the first one kept. -/
theorem claim5_counterexample :
    (normalize_url "www.a.com/x" = some "://www.a.com/x" ∧
      normalize_url "://www.a.com/x" = some "://://www.a.com/x" ∧
      normalize_url "://www.a.com/x" ≠ normalize_url "www.a.com/x") ∧
    (normalize_url "http://a.com/b;p/" = some "http://a.com/b;p" ∧
      normalize_url "http://a.com/b;p" = some "http://a.com/b" ∧
      normalize_url "http://a.com/b;p/" ≠ normalize_url "http://a.com/b;p") := by
  decide

/-- Claim C5, amended.  (1) On every URL that parses with a non-empty
scheme and contains no `;`, `[` or `]`, `normalize_url` is idempotent;
(2) two URLs equal up to letter case always normalise identically;
(3) a `#fragment` appended to a fragment-free URL never changes the
result; (4) a trailing slash appended to a URL without `#`, `?` and `;`
never changes the result. -/
theorem claim5_normalize_url :
    (∀ (u n : String) (r : ParsedURL),
        urlparseChars u.data = some r → r.scheme ≠ [] →
        ';' ∉ u.data → '[' ∉ u.data → ']' ∉ u.data →
        normalize_url u = some n → normalize_url n = some n) ∧
    (∀ u v : String, pyLower u.data = pyLower v.data →
        normalize_url u = normalize_url v) ∧
    (∀ u f : String, '#' ∉ u.data →
        normalize_url (String.mk (u.data ++ '#' :: f.data)) = normalize_url u) ∧
    (∀ u : String, '#' ∉ u.data → '?' ∉ u.data → ';' ∉ u.data →
        normalize_url (String.mk (u.data ++ ['/'])) = normalize_url u) := by
  refine ⟨?_, ?_, ?_, ?_⟩
  · intro u n r h hs h1 h2 h3 hn
    exact normalize_url_idem h hs h1 h2 h3 hn
  · intro u v huv
    have e1 : normalize_url (String.mk (pyLower u.data)) = normalize_url u :=
      normalize_url_lower u.data
    have e2 : normalize_url (String.mk (pyLower v.data)) = normalize_url v :=
      normalize_url_lower v.data
    rw [← e1, ← e2, huv]
  · intro u f h
    exact normalize_url_fragment u f h
  · intro u h1 h2 h3
    exact normalize_url_slash u h1 h2 h3

/-- Witness for C5: each part of the amended theorem applied at a concrete
input. -/
theorem claim5_normalize_url_witness :
    normalize_url "http://www.ducati.com/bikes" =
      some "http://www.ducati.com/bikes" ∧
    normalize_url "HTTP://WWW.Ducati.COM/Bikes" =
      normalize_url "http://www.ducati.com/bikes" ∧
    normalize_url (String.mk (("https://a.com/b").data ++ '#' :: ("sec").data)) =
      normalize_url "https://a.com/b" ∧
    normalize_url (String.mk (("https://a.com/b").data ++ ['/'])) =
      normalize_url "https://a.com/b" := by
  refine ⟨?_, ?_, ?_, ?_⟩
  · exact claim5_normalize_url.1 "http://www.ducati.com/bikes"
      "http://www.ducati.com/bikes"
      ⟨("http").data, ("www.ducati.com").data, ("/bikes").data, [], []⟩
      (by decide) (by decide) (by decide) (by decide) (by decide) (by decide)
  · exact claim5_normalize_url.2.1 "HTTP://WWW.Ducati.COM/Bikes"
      "http://www.ducati.com/bikes" (by decide)
  · exact claim5_normalize_url.2.2.1 "https://a.com/b" "sec" (by decide)
  · exact claim5_normalize_url.2.2.2 "https://a.com/b" (by decide) (by decide)
      (by decide)

end Moto
